import Mathlib

set_option maxHeartbeats 2000000

/-!
Verification of the label-extraction backend (`src/main.py`).

The service text pipeline operates on Python `str` values; we embed texts as
`List Char`.  The JSON repair step of `call_gemini` (main.py lines 107-128)
uses Python's `json.loads`; we model that parser faithfully below
(`jsonParse`), including code-fence stripping, prose brace-scanning, the
HTTP error taxonomy of the endpoint, and the normalization performed by
`parse_label` (lines 134-152).
-/

namespace LabelBackend

/-- Character list of a string literal (Python `str` as `List Char`). -/
def str2list (s : String) : List Char := s.data

/-- The whitespace characters skipped by Python's `json` module
(`json.decoder.WHITESPACE_STR` is exactly a space, tab, newline, return). -/
def isJsonWs (c : Char) : Bool :=
  c == ' ' || c == '\t' || c == '\n' || c == '\r'

/-- The characters removed by Python's `str.strip()` (all characters for
which `str.isspace()` holds). -/
def pyWsList : List Char :=
  [' ', '\t', '\n', '\r', '\x0b', '\x0c',
   '\x1c', '\x1d', '\x1e', '\x1f', '\x85', ' ', ' ',
   ' ', ' ', ' ', ' ', ' ', ' ', ' ',
   ' ', ' ', ' ', ' ', ' ', ' ', ' ',
   ' ', '　']

/-- Python `str.isspace` on a single character. -/
def pyIsSpace (c : Char) : Bool := c ∈ pyWsList

/-- Whitespace skipping as done between JSON tokens by `json.loads`. -/
def skipWs (l : List Char) : List Char := l.dropWhile isJsonWs

/-- Python `str.strip(chars)`: remove the characters satisfying `p` from
both ends of the string. -/
def stripBoth (p : Char → Bool) (l : List Char) : List Char :=
  ((l.dropWhile p).reverse.dropWhile p).reverse

/-- Python `text.strip()` (main.py lines 107 and 114). -/
def pyStrip (l : List Char) : List Char := stripBoth pyIsSpace l

/-- Python `text.strip("\x60")` (main.py line 110): remove all backtick
characters from both ends. -/
def stripTicks (l : List Char) : List Char := stripBoth (fun c => c == '`') l

/-- ASCII lowercasing, modelling `str.lower()` as far as the
`startswith("json")` check of main.py line 112 can observe. -/
def lowerAscii (c : Char) : Char :=
  if 'A' ≤ c ∧ c ≤ 'Z' then Char.ofNat (c.toNat + 32) else c

/-- JSON values as produced by Python's `json.loads`.  Numeric literals are
kept verbatim (Python converts them to `int`/`float`; no claim needs the
converted value, and IEEE float semantics are outside this embedding). -/
inductive Json where
  | null
  | bool (b : Bool)
  | num (lexeme : List Char)
  | str (s : List Char)
  | arr (elems : List Json)
  | obj (members : List (List Char × Json))

/-- First-match association list lookup (Python `dict` access by key;
`objInsert` below guarantees keys are unique). -/
def lookupKey (ms : List (List Char × Json)) (k : List Char) : Option Json :=
  match ms with
  | [] => none
  | (k', v) :: rest => if k' = k then some v else lookupKey rest k

/-- Python `dict` construction from ordered pairs: a repeated key replaces
the value in place, keeping the position of the first occurrence. -/
def objInsert (ms : List (List Char × Json)) (k : List Char) (v : Json) :
    List (List Char × Json) :=
  match ms with
  | [] => [(k, v)]
  | (k', v') :: rest =>
      if k' = k then (k', v) :: rest else (k', v') :: objInsert rest k v

/-- Value of a hexadecimal digit, as accepted in a `\uXXXX` escape. -/
def hexVal (c : Char) : Option Nat :=
  if '0' ≤ c ∧ c ≤ '9' then some (c.toNat - 48)
  else if 'a' ≤ c ∧ c ≤ 'f' then some (c.toNat - 87)
  else if 'A' ≤ c ∧ c ≤ 'F' then some (c.toNat - 55)
  else none

/-- Four hex digits of a `\uXXXX` escape. -/
def hex4 (c1 c2 c3 c4 : Char) : Option Nat :=
  match hexVal c1, hexVal c2, hexVal c3, hexVal c4 with
  | some a, some b, some c, some d => some (((a * 16 + b) * 16 + c) * 16 + d)
  | _, _, _, _ => none

/-- Single-character escapes accepted by `json.loads` after a backslash. -/
def escChar (c : Char) : Option Char :=
  if c = '"' then some '"'
  else if c = '\\' then some '\\'
  else if c = '/' then some '/'
  else if c = 'b' then some '\x08'
  else if c = 'f' then some '\x0c'
  else if c = 'n' then some '\n'
  else if c = 'r' then some '\r'
  else if c = 't' then some '\t'
  else none

/-- Scan of a JSON string body after the opening quote, as in
`json.decoder.py_scanstring` in strict mode: unescaped control characters
are rejected and `\uXXXX` escapes are decoded.  Which inputs are accepted,
and how far each one is consumed, coincide exactly with Python; the one
simplification is in the decoded content of surrogate escapes, which
`Char` cannot represent (Python combines a high/low pair into one code
point, this model maps each of the two escapes through `Char.ofNat`,
whose default is used for any non-scalar code).  Returns the decoded
content and the input after the closing quote. -/
def scanStr : List Char → Option (List Char × List Char)
  | [] => none
  | '"' :: rest => some ([], rest)
  | '\\' :: 'u' :: c1 :: c2 :: c3 :: c4 :: rest =>
    match hex4 c1 c2 c3 c4 with
    | none => none
    | some n => (scanStr rest).map (fun p => (Char.ofNat n :: p.1, p.2))
  | '\\' :: c :: rest =>
    match escChar c with
    | some e => (scanStr rest).map (fun p => (e :: p.1, p.2))
    | none => none
  | c :: rest =>
    if c.toNat < 0x20 then none
    else (scanStr rest).map (fun p => (c :: p.1, p.2))

/-- Integer part of `json.scanner.NUMBER_RE`: `-?(0|[1-9]\d*)` without the
sign, which the caller handles. -/
def lexIntPart : List Char → Option (List Char × List Char)
  | [] => none
  | '0' :: rest => some (['0'], rest)
  | c :: rest =>
      if c.isDigit then
        some (c :: rest.takeWhile Char.isDigit, rest.dropWhile Char.isDigit)
      else none

/-- Optional fraction part `(\.\d+)?` of the JSON number regex. -/
def lexFrac (l : List Char) : List Char × List Char :=
  match l with
  | '.' :: rest =>
      if rest.takeWhile Char.isDigit = [] then ([], l)
      else ('.' :: rest.takeWhile Char.isDigit, rest.dropWhile Char.isDigit)
  | _ => ([], l)

/-- Optional exponent part `([eE][-+]?\d+)?` of the JSON number regex. -/
def lexExp (l : List Char) : List Char × List Char :=
  match l with
  | c :: s :: rest =>
      if c = 'e' ∨ c = 'E' then
        if s = '+' ∨ s = '-' then
          if rest.takeWhile Char.isDigit = [] then ([], l)
          else (c :: s :: rest.takeWhile Char.isDigit, rest.dropWhile Char.isDigit)
        else
          if (s :: rest).takeWhile Char.isDigit = [] then ([], l)
          else (c :: (s :: rest).takeWhile Char.isDigit,
                (s :: rest).dropWhile Char.isDigit)
      else ([], l)
  | _ => ([], l)

/-- JSON number lexing, faithful to `json.scanner.NUMBER_RE` matching at
the current position.  Returns the matched lexeme and the rest. -/
def lexNumber (l : List Char) : Option (List Char × List Char) :=
  match l with
  | '-' :: rest =>
    match lexIntPart rest with
    | none => none
    | some (ip, r1) =>
        let fr := lexFrac r1
        let ex := lexExp fr.2
        some ('-' :: (ip ++ fr.1 ++ ex.1), ex.2)
  | _ =>
    match lexIntPart l with
    | none => none
    | some (ip, r1) =>
        let fr := lexFrac r1
        let ex := lexExp fr.2
        some (ip ++ fr.1 ++ ex.1, ex.2)

/-- Exact-literal consumption (`true`, `false`, `null`, `NaN`, `Infinity`). -/
def expectLit (pat l : List Char) : Option (List Char) :=
  if pat.isPrefixOf l then some (l.drop pat.length) else none

mutual

/-- One JSON value at the current position, as `json.scanner.py_make_scanner`
dispatches on the first character: object, array, string, `true`/`false`/
`null`, `NaN`/`Infinity`/`-Infinity`, or a number.  Leading whitespace is
not skipped here (callers skip it), matching Python.  The fuel only bounds
recursion depth; every recursive call follows the consumption of at least
one character, so `length + 1` fuel never runs out. -/
def parseValue : Nat → List Char → Option (Json × List Char)
  | 0, _ => none
  | fuel + 1, l =>
    match l with
    | '\x7b' :: rest =>
      match skipWs rest with
      | '\x7d' :: r => some (Json.obj [], r)
      | l1 => parseMembers fuel l1 []
    | '[' :: rest =>
      match skipWs rest with
      | ']' :: r => some (Json.arr [], r)
      | l1 =>
        match parseValue fuel l1 with
        | none => none
        | some (v, r) => parseElems fuel r [v]
    | '"' :: rest => (scanStr rest).map (fun p => (Json.str p.1, p.2))
    | 't' :: rest => (expectLit (str2list "rue") rest).map (fun r => (Json.bool true, r))
    | 'f' :: rest => (expectLit (str2list "alse") rest).map (fun r => (Json.bool false, r))
    | 'n' :: rest => (expectLit (str2list "ull") rest).map (fun r => (Json.null, r))
    | 'N' :: rest => (expectLit (str2list "aN") rest).map (fun r => (Json.num (str2list "NaN"), r))
    | 'I' :: rest =>
        (expectLit (str2list "nfinity") rest).map (fun r => (Json.num (str2list "Infinity"), r))
    | '-' :: 'I' :: rest =>
        (expectLit (str2list "nfinity") rest).map (fun r => (Json.num (str2list "-Infinity"), r))
    | _ => (lexNumber l).map (fun p => (Json.num p.1, p.2))

/-- Members of an object after `\x7b` (or after a comma), positioned at a
double quote, as in `json.decoder.JSONObject`. -/
def parseMembers : Nat → List Char → List (List Char × Json) →
    Option (Json × List Char)
  | 0, _, _ => none
  | fuel + 1, l, acc =>
    match l with
    | '"' :: rest =>
      match scanStr rest with
      | none => none
      | some (k, r1) =>
        match skipWs r1 with
        | ':' :: r2 =>
          match parseValue fuel (skipWs r2) with
          | none => none
          | some (v, r3) =>
            match skipWs r3 with
            | ',' :: r4 => parseMembers fuel (skipWs r4) (objInsert acc k v)
            | '\x7d' :: r4 => some (Json.obj (objInsert acc k v), r4)
            | _ => none
        | _ => none
    | _ => none

/-- Continuation of an array after a parsed element, expecting a comma or a
closing bracket, as in `json.decoder.JSONArray`. -/
def parseElems : Nat → List Char → List Json → Option (Json × List Char)
  | 0, _, _ => none
  | fuel + 1, r, acc =>
    match skipWs r with
    | ',' :: r2 =>
      match parseValue fuel (skipWs r2) with
      | none => none
      | some (v, r3) => parseElems fuel r3 (acc ++ [v])
    | ']' :: r2 => some (Json.arr acc, r2)
    | _ => none

end

/-- Python `json.loads`: skip leading whitespace, parse one value, require
only whitespace to follow (`json.decoder.JSONDecoder.decode`).  `none`
models a raised `json.JSONDecodeError`. -/
def jsonParse (l : List Char) : Option Json :=
  match parseValue (l.length + 1) (skipWs l) with
  | none => none
  | some (v, r) => if skipWs r = [] then some v else none

/-- Python `str.find(c)` (first index, `none` for `-1`). -/
def posFind (c : Char) : List Char → Option Nat
  | [] => none
  | x :: xs => if x = c then some 0 else (posFind c xs).map (· + 1)

/-- Python `str.rfind(c)` (last index, `none` for `-1`). -/
def posRFind (c : Char) (l : List Char) : Option Nat :=
  (posFind c l.reverse).map (fun k => l.length - 1 - k)

/-- The brace test of main.py lines 120-122: `start = find("\x7b")`,
`end = rfind("\x7d")`, succeed when both exist and `end > start`. -/
def braceSpan (u : List Char) : Option (Nat × Nat) :=
  match posFind '\x7b' u, posRFind '\x7d' u with
  | some i, some j => if i < j then some (i, j) else none
  | _, _ => none

/-- The cleaning of main.py lines 107-114: strip whitespace, remove a
leading code fence with an optional case-insensitive `json` tag, strip
whitespace again. -/
def cleanText (t : List Char) : List Char :=
  let t1 := pyStrip t
  let t2 :=
    if (str2list "```").isPrefixOf t1 then
      let u := stripTicks t1
      if (str2list "json").isPrefixOf (u.map lowerAscii) then u.drop 4 else u
    else t1
  pyStrip t2

/-- An `HTTPException(status_code, detail)` as raised by the endpoint. -/
structure HTTPError where
  status : Nat
  detail : List Char
deriving DecidableEq

/-- Detail of the `JsonExtractionError` raised when no brace pair exists
(main.py line 128). -/
def noJsonMsg : List Char := str2list "No JSON found in Gemini output"

/-- Detail of the `JsonExtractionError` raised when the brace-bracketed
substring fails to parse (main.py line 126). -/
def parseFailMsg : List Char := str2list "Failed to parse JSON from Gemini output"

/-- The text-to-JSON repair of main.py lines 107-130: clean the text, try a
direct parse, otherwise parse the substring from the first `\x7b` to the
last `\x7d` inclusive, otherwise raise a 500. -/
def repairJson (text : List Char) : Except HTTPError Json :=
  let u := cleanText text
  match jsonParse u with
  | some v => .ok v
  | none =>
    match braceSpan u with
    | some (i, j) =>
      match jsonParse ((u.drop i).take (j + 1 - i)) with
      | some v => .ok v
      | none => .error ⟨500, parseFailMsg⟩
    | none => .error ⟨500, noJsonMsg⟩

/-- Result of the single `requests.post` call: either a raised
`requests.RequestException` or an HTTP response with status and body. -/
inductive UpstreamResult where
  | transportError (msg : List Char)
  | reply (status : Nat) (body : List Char)
deriving DecidableEq

/-- Outcome of an endpoint invocation: a value, an `HTTPException`, or an
exception escaping every handler in the source (no `HTTPException`). -/
inductive Outcome (α : Type) where
  | ok (a : α)
  | httpError (e : HTTPError)
  | unhandled (msg : List Char)

/-- Python subscript `j[k]` restricted to the cases in which the extraction
chain of main.py line 102 can reach the final `["text"]` lookup: only a
dict supports the chain (all other subscripts either raise or produce a
value on which the next subscript raises). -/
def getKey (j : Json) (k : List Char) : Option Json :=
  match j with
  | Json.obj ms => lookupKey ms k
  | _ => none

/-- Python subscript `j[0]` for the extraction chain; as for `getKey`, only
a nonempty list can contribute to a successful full chain. -/
def getIdx0 (j : Json) : Option Json :=
  match j with
  | Json.arr (x :: _) => some x
  | _ => none

/-- The envelope unwrapping `data["candidates"][0]["content"]["parts"][0]["text"]`
of main.py line 102; `none` models any exception inside the `try` block. -/
def extractText (data : Json) : Option Json :=
  ((((((getKey data (str2list "candidates")).bind getIdx0).bind
      (fun c => getKey c (str2list "content"))).bind
      (fun c => getKey c (str2list "parts"))).bind getIdx0).bind
      (fun p => getKey p (str2list "text")))

/-- Detail of the missing-credential `HTTPException` (main.py line 71). -/
def keyMissingMsg : List Char := str2list "GEMINI_API_KEY not set on server"

/-- Detail of the malformed-envelope `HTTPException` (main.py line 104). -/
def badFormatMsg : List Char := str2list "Unexpected Gemini response format"

/-- `call_gemini` (main.py lines 66-130).  `apiKeyEnv` models
`os.getenv("GEMINI_API_KEY")`; `upstream` models the result of the one
`requests.post` call, which the function consults only after the
credential check succeeds. -/
def callGemini (apiKeyEnv : Option (List Char)) (upstream : UpstreamResult) :
    Outcome Json :=
  let apiKey := apiKeyEnv.getD []
  if apiKey = [] then .httpError ⟨500, keyMissingMsg⟩
  else
    match upstream with
    | .transportError msg =>
        .httpError ⟨502, str2list "Gemini request failed: " ++ msg⟩
    | .reply status body =>
      if status ≠ 200 then
        .httpError ⟨status, str2list "Gemini error: " ++ body.take 500⟩
      else
        match jsonParse body with
        | none => .unhandled (str2list "resp.json raised while decoding the body")
        | some data =>
          match extractText data with
          | none => .httpError ⟨500, badFormatMsg⟩
          | some (Json.str text) =>
            match repairJson text with
            | .ok v => .ok v
            | .error e => .httpError e
          | some _ => .unhandled (str2list "str.strip called on a non-string text field")

/-- The `ParseLabelResponse` dict built by `parse_label` (main.py lines
143-150); every field is always present.  A Python `None` and a JSON
`null` are both `Json.null`. -/
structure LabelResponse where
  name : Json
  serving_size_g : Json
  per_100g : Json
  per_serving : Json
  notes : Json
  raw : Json

/-- Python `parsed.get(k)`: `None` when the key is absent. -/
def pyGet (ms : List (List Char × Json)) (k : List Char) : Json :=
  match lookupKey ms k with
  | none => Json.null
  | some v => v

/-- Python falsiness of a decoded JSON value (`bool(x) == False`): `None`,
`False`, empty containers, the empty string, and numeric zero.  For float
literals, zero is decided on the mantissa digits; values that are nonzero
as written but underflow to `0.0` (such as `1e-500`) are outside this
embedding of IEEE conversion. -/
def numLexFalsy (lex : List Char) : Bool :=
  if lex.any (fun c => c == 'N' || c == 'I') then false
  else (lex.takeWhile (fun c => !(c == 'e' || c == 'E'))).all
        (fun c => !('1' ≤ c ∧ c ≤ '9'))

/-- Python truth test on a `json.loads` result. -/
def pyFalsy : Json → Bool
  | Json.null => true
  | Json.bool b => !b
  | Json.num lex => numLexFalsy lex
  | Json.str s => s.isEmpty
  | Json.arr a => a.isEmpty
  | Json.obj ms => ms.isEmpty

/-- The normalization of main.py lines 137-150 applied to the repaired
object's members. -/
def normalizeLabel (parsed : List (List Char × Json)) : LabelResponse :=
  { name := pyGet parsed (str2list "name")
    serving_size_g := pyGet parsed (str2list "serving_size_g")
    per_100g :=
      if pyFalsy (pyGet parsed (str2list "per_100g")) then Json.obj []
      else pyGet parsed (str2list "per_100g")
    per_serving := pyGet parsed (str2list "per_serving")
    notes := pyGet parsed (str2list "notes")
    raw := Json.obj parsed }

/-- The `POST /api/parse-label` handler `parse_label` (main.py lines
133-152): call `call_gemini` and normalize.  `parsed.get` on a non-dict
raises an `AttributeError` that no handler catches. -/
def parseLabel (apiKeyEnv : Option (List Char)) (upstream : UpstreamResult) :
    Outcome LabelResponse :=
  match callGemini apiKeyEnv upstream with
  | .ok (Json.obj ms) => .ok (normalizeLabel ms)
  | .ok _ => .unhandled (str2list "dict.get called on a non-object parse result")
  | .httpError e => .httpError e
  | .unhandled m => .unhandled m

/-- Boolean substring test (`needle in haystack` for Python strings). -/
def containsSub (needle : List Char) : List Char → Bool
  | [] => needle.isEmpty
  | c :: rest => needle.isPrefixOf (c :: rest) || containsSub needle rest

/-- Removal of the last `k` characters of a text. -/
def cutL (k : Nat) (l : List Char) : List Char := l.take (l.length - k)

/-- Characters on which the scanner of `parseValue` can succeed. -/
def isStart (c : Char) : Bool :=
  c == '\x7b' || c == '[' || c == '"' || c == 't' || c == 'f' || c == 'n' ||
  c == 'N' || c == 'I' || c == '-' || c.isDigit

/-- Whether a JSON value is a Python dict. -/
def Json.isObj : Json → Bool
  | Json.obj _ => true
  | _ => false

/-! Basic facts about `cutL`, the whitespace classes, and stripping. -/

theorem cutL_zero (l : List Char) : cutL 0 l = l := by
  simp [cutL]

theorem cutL_nil (k : Nat) : cutL k [] = [] := by
  simp [cutL]

theorem cutL_cons (c : Char) (l : List Char) (k : Nat) (h : k ≤ l.length) :
    cutL k (c :: l) = c :: cutL k l := by
  simp only [cutL, List.length_cons]
  rw [show l.length + 1 - k = (l.length - k) + 1 by omega]
  rfl

theorem cutL_self (l : List Char) : cutL l.length l = [] := by
  simp [cutL]

theorem cutL_append (a b : List Char) (k : Nat) (h : k ≤ b.length) :
    cutL k (a ++ b) = a ++ cutL k b := by
  simp only [cutL, List.length_append]
  rw [List.take_append_eq_append_take,
    List.take_of_length_le (l := a) (by omega),
    show a.length + b.length - k - a.length = b.length - k by omega]

theorem cutL_append_self (a b : List Char) : cutL b.length (a ++ b) = a := by
  rw [cutL_append a b b.length le_rfl, cutL_self, List.append_nil]

theorem dropWhile_cutL (p : Char → Bool) :
    ∀ (l : List Char) (k : Nat), k ≤ (l.dropWhile p).length →
      (cutL k l).dropWhile p = cutL k (l.dropWhile p)
  | [], k, h => by
      simp only [List.dropWhile_nil] at h ⊢
      simp only [List.length_nil, Nat.le_zero] at h
      simp [h, cutL_nil]
  | c :: cs, k, h => by
      by_cases hp : p c
      · have hd : (c :: cs).dropWhile p = cs.dropWhile p := by
          simp [List.dropWhile_cons, hp]
        rw [hd] at h
        have hk : k ≤ cs.length :=
          le_trans h (List.dropWhile_suffix p).length_le
        rw [cutL_cons c cs k hk]
        have hp' : p c = true := hp
        simp only [List.dropWhile_cons, hp', if_true]
        exact dropWhile_cutL p cs k h
      · have hd : (c :: cs).dropWhile p = c :: cs := by
          simp [List.dropWhile_cons, hp]
        rw [hd] at h
        simp only [List.length_cons] at h
        rcases Nat.lt_or_ge k (cs.length + 1) with hk | hk
        · have hk' : k ≤ cs.length := by omega
          rw [cutL_cons c cs k hk', hd]
          simp [List.dropWhile_cons, hp, cutL_cons c cs k hk']
        · have hk' : k = cs.length + 1 := by omega
          subst hk'
          have : cutL (cs.length + 1) (c :: cs) = [] := by
            simpa using cutL_self (c :: cs)
          rw [this, hd, this]
          simp

theorem takeWhile_cutL (p : Char → Bool) :
    ∀ (l : List Char) (k : Nat), k ≤ (l.dropWhile p).length →
      (cutL k l).takeWhile p = l.takeWhile p
  | [], k, h => by simp [cutL_nil]
  | c :: cs, k, h => by
      by_cases hp : p c
      · have hd : (c :: cs).dropWhile p = cs.dropWhile p := by
          simp [List.dropWhile_cons, hp]
        rw [hd] at h
        have hk : k ≤ cs.length :=
          le_trans h (List.dropWhile_suffix p).length_le
        rw [cutL_cons c cs k hk]
        have hp' : p c = true := hp
        simp only [List.takeWhile_cons, hp', if_true]
        rw [takeWhile_cutL p cs k h]
      · have hd : (c :: cs).dropWhile p = c :: cs := by
          simp [List.dropWhile_cons, hp]
        rw [hd] at h
        simp only [List.length_cons] at h
        rcases Nat.lt_or_ge k (cs.length + 1) with hk | hk
        · have hk' : k ≤ cs.length := by omega
          rw [cutL_cons c cs k hk']
          simp [List.takeWhile_cons, hp]
        · have hk' : k = cs.length + 1 := by omega
          subst hk'
          have : cutL (cs.length + 1) (c :: cs) = [] := by
            simpa using cutL_self (c :: cs)
          rw [this]
          simp [List.takeWhile_cons, hp]

theorem takeWhile_prefix_nil (p : Char → Bool) (l m : List Char)
    (h : l.takeWhile p = []) (hm : m <+: l) : m.takeWhile p = [] := by
  rcases m with _ | ⟨c, cs⟩
  · simp
  · rcases l with _ | ⟨d, ds⟩
    · exact absurd hm.length_le (by simp)
    · obtain ⟨t, ht⟩ := hm
      have hcd : c = d := by
        have := congrArg (List.head? ·) ht
        simpa using this
      subst hcd
      simp only [List.takeWhile_cons] at h ⊢
      split at h
      · exact absurd h (by simp)
      · simp_all

theorem jsonWs_pyWs (c : Char) (h : isJsonWs c = true) : pyIsSpace c = true := by
  simp only [isJsonWs, Bool.or_eq_true, beq_iff_eq] at h
  rcases h with ((h | h) | h) | h <;> subst h <;> decide

theorem pyWs_not_isStart (c : Char) (h : pyIsSpace c = true) : isStart c = false := by
  have hm : c ∈ pyWsList := by
    simpa [pyIsSpace] using h
  fin_cases hm <;> decide

theorem isStart_not_pyWs (c : Char) (h : isStart c = true) : pyIsSpace c = false := by
  cases hp : pyIsSpace c
  · rfl
  · rw [pyWs_not_isStart c hp] at h
    exact absurd h (by simp)

theorem isStart_not_jsonWs (c : Char) (h : isStart c = true) : isJsonWs c = false := by
  cases hj : isJsonWs c
  · rfl
  · rw [pyWs_not_isStart c (jsonWs_pyWs c hj)] at h
    exact absurd h (by simp)

theorem skipWs_suffix (l : List Char) : skipWs l <:+ l :=
  List.dropWhile_suffix isJsonWs

theorem skipWs_cons_of_neg (c : Char) (cs : List Char) (h : isJsonWs c = false) :
    skipWs (c :: cs) = c :: cs := by
  simp [skipWs, List.dropWhile_cons, h]

theorem skipWs_head (l : List Char) (c : Char) (r : List Char)
    (h : skipWs l = c :: r) : isJsonWs c = false := by
  induction l with
  | nil => simp [skipWs] at h
  | cons d ds ih =>
    rw [skipWs, List.dropWhile_cons] at h
    split at h
    · exact ih h
    · cases h
      simp_all

theorem skipWs_cutL (l : List Char) (k : Nat) (h : k ≤ (skipWs l).length) :
    skipWs (cutL k l) = cutL k (skipWs l) :=
  dropWhile_cutL isJsonWs l k h

theorem dropWhile_append_all (p : Char → Bool) (a b : List Char)
    (h : ∀ c ∈ a, p c = true) : (a ++ b).dropWhile p = b.dropWhile p := by
  induction a with
  | nil => simp
  | cons c cs ih =>
    have hc : p c = true := h c (by simp)
    simp only [List.cons_append, List.dropWhile_cons, hc, if_true]
    exact ih (fun x hx => h x (by simp [hx]))

theorem scanStr_suffix_aux (n : Nat) : ∀ l : List Char, l.length ≤ n →
    ∀ s r, scanStr l = some (s, r) → r.length < l.length ∧ r <:+ l := by
  induction n with
  | zero =>
    intro l hl s r h
    have : l = [] := List.length_eq_zero.mp (Nat.le_zero.mp hl)
    subst this
    simp [scanStr] at h
  | succ m ih =>
    intro l hl s r h
    rw [scanStr.eq_def] at h
    split at h
    · exact absurd h (by simp)
    · rename_i x rest
      simp only [Option.some.injEq, Prod.mk.injEq] at h
      obtain ⟨-, hr⟩ := h
      subst hr
      exact ⟨by simp, ⟨['"'], rfl⟩⟩
    · rename_i x c1 c2 c3 c4 rest
      split at h
      · exact absurd h (by simp)
      · rename_i nval hhex
        simp only [Option.map_eq_some'] at h
        obtain ⟨⟨s', r'⟩, hrec, hpair⟩ := h
        simp only [Prod.mk.injEq] at hpair
        obtain ⟨-, hr⟩ := hpair
        subst hr
        have hlen : rest.length ≤ m := by
          simp only [List.length_cons] at hl
          omega
        obtain ⟨hlt, hsuf⟩ := ih rest hlen s' r' hrec
        refine ⟨by simp only [List.length_cons]; omega, ?_⟩
        exact hsuf.trans ⟨['\\', 'u', c1, c2, c3, c4], rfl⟩
    · rename_i x c rest hne
      split at h
      · rename_i e hesc
        simp only [Option.map_eq_some'] at h
        obtain ⟨⟨s', r'⟩, hrec, hpair⟩ := h
        simp only [Prod.mk.injEq] at hpair
        obtain ⟨-, hr⟩ := hpair
        subst hr
        have hlen : rest.length ≤ m := by
          simp only [List.length_cons] at hl
          omega
        obtain ⟨hlt, hsuf⟩ := ih rest hlen s' r' hrec
        refine ⟨by simp only [List.length_cons]; omega, ?_⟩
        exact hsuf.trans ⟨['\\', c], rfl⟩
      · exact absurd h (by simp)
    · rename_i x c rest hne1 hne2 hne3
      split at h
      · exact absurd h (by simp)
      · simp only [Option.map_eq_some'] at h
        obtain ⟨⟨s', r'⟩, hrec, hpair⟩ := h
        simp only [Prod.mk.injEq] at hpair
        obtain ⟨-, hr⟩ := hpair
        subst hr
        have hlen : rest.length ≤ m := by
          simp only [List.length_cons] at hl
          omega
        obtain ⟨hlt, hsuf⟩ := ih rest hlen s' r' hrec
        refine ⟨by simp only [List.length_cons]; omega, ?_⟩
        exact hsuf.trans ⟨[c], rfl⟩

theorem scanStr_suffix (l s r : List Char) (h : scanStr l = some (s, r)) :
    r.length < l.length ∧ r <:+ l :=
  scanStr_suffix_aux l.length l le_rfl s r h

theorem scanStr_quote_eq (rest : List Char) : scanStr ('"' :: rest) = some ([], rest) :=
  rfl

theorem scanStr_u_eq (c1 c2 c3 c4 : Char) (rest : List Char) :
    scanStr ('\\' :: 'u' :: c1 :: c2 :: c3 :: c4 :: rest) =
      match hex4 c1 c2 c3 c4 with
      | none => none
      | some n => (scanStr rest).map (fun p => (Char.ofNat n :: p.1, p.2)) :=
  rfl

theorem scanStr_esc_eq (c e : Char) (rest : List Char) (hesc : escChar c = some e) :
    scanStr ('\\' :: c :: rest) = (scanStr rest).map (fun p => (e :: p.1, p.2)) := by
  have hu : c ≠ 'u' := by
    intro hc
    subst hc
    exact absurd hesc (by simp [escChar])
  rw [scanStr.eq_def]
  split
  · rename_i x heq
    exact absurd heq (List.cons_ne_nil _ _)
  · rename_i x rest1 heq
    injection heq with hc hrest
    exact absurd hc (by decide)
  · rename_i x c1 c2 c3 c4 rest1 heq
    injection heq with hh ht
    injection ht with hc hrest
    exact absurd hc hu
  · rename_i x c1 rest1 hcond heq
    injection heq with hh ht
    injection ht with hc hrest
    subst hc
    subst hrest
    rw [hesc]
  · rename_i x c1 rest1 hq hu2 hbs heq
    injection heq with hc hrest
    exact (hbs c rest hc.symm hrest.symm).elim

theorem scanStr_plain_eq (c : Char) (rest : List Char) (h1 : ¬ c = '"')
    (h2 : ¬ c = '\\') (h3 : ¬ c.toNat < 32) :
    scanStr (c :: rest) = (scanStr rest).map (fun p => (c :: p.1, p.2)) := by
  rw [scanStr.eq_def]
  split
  · rename_i x heq
    exact absurd heq (List.cons_ne_nil _ _)
  · rename_i x rest1 heq
    injection heq with hc hrest
    exact absurd hc h1
  · rename_i x c1 c2 c3 c4 rest1 heq
    injection heq with hc hrest
    exact absurd hc h2
  · rename_i x c1 rest1 hcond heq
    injection heq with hc hrest
    exact absurd hc h2
  · rename_i x c1 rest1 hq hu2 hbs heq
    injection heq with hc hrest
    subst hc
    subst hrest
    rw [if_neg h3]

theorem scanStr_quote_split_aux (n : Nat) : ∀ l : List Char, l.length ≤ n →
    ∀ s r, scanStr l = some (s, r) → ∃ x, l = x ++ '"' :: r := by
  induction n with
  | zero =>
    intro l hl s r h
    have : l = [] := List.length_eq_zero.mp (Nat.le_zero.mp hl)
    subst this
    simp [scanStr] at h
  | succ m ih =>
    intro l hl s r h
    rw [scanStr.eq_def] at h
    split at h
    · exact absurd h (by simp)
    · rename_i x rest
      simp only [Option.some.injEq, Prod.mk.injEq] at h
      obtain ⟨-, hr⟩ := h
      subst hr
      exact ⟨[], rfl⟩
    · rename_i x c1 c2 c3 c4 rest
      split at h
      · exact absurd h (by simp)
      · rename_i nval hhex
        simp only [Option.map_eq_some'] at h
        obtain ⟨⟨s', r'⟩, hrec, hpair⟩ := h
        simp only [Prod.mk.injEq] at hpair
        obtain ⟨-, hr⟩ := hpair
        subst hr
        have hlen : rest.length ≤ m := by
          simp only [List.length_cons] at hl
          omega
        obtain ⟨x', hx⟩ := ih rest hlen s' r' hrec
        exact ⟨'\\' :: 'u' :: c1 :: c2 :: c3 :: c4 :: x', by simp [hx]⟩
    · rename_i x c rest hne
      split at h
      · rename_i e hesc
        simp only [Option.map_eq_some'] at h
        obtain ⟨⟨s', r'⟩, hrec, hpair⟩ := h
        simp only [Prod.mk.injEq] at hpair
        obtain ⟨-, hr⟩ := hpair
        subst hr
        have hlen : rest.length ≤ m := by
          simp only [List.length_cons] at hl
          omega
        obtain ⟨x', hx⟩ := ih rest hlen s' r' hrec
        exact ⟨'\\' :: c :: x', by simp [hx]⟩
      · exact absurd h (by simp)
    · rename_i x c rest hne1 hne2 hne3
      split at h
      · exact absurd h (by simp)
      · simp only [Option.map_eq_some'] at h
        obtain ⟨⟨s', r'⟩, hrec, hpair⟩ := h
        simp only [Prod.mk.injEq] at hpair
        obtain ⟨-, hr⟩ := hpair
        subst hr
        have hlen : rest.length ≤ m := by
          simp only [List.length_cons] at hl
          omega
        obtain ⟨x', hx⟩ := ih rest hlen s' r' hrec
        exact ⟨c :: x', by simp [hx]⟩

theorem scanStr_quote_split (l s r : List Char) (h : scanStr l = some (s, r)) :
    ∃ x, l = x ++ '"' :: r :=
  scanStr_quote_split_aux l.length l le_rfl s r h

theorem scanStr_cutL_aux (n : Nat) : ∀ l : List Char, l.length ≤ n →
    ∀ s r k, scanStr l = some (s, r) → k ≤ r.length →
    scanStr (cutL k l) = some (s, cutL k r) := by
  induction n with
  | zero =>
    intro l hl s r k h hk
    have : l = [] := List.length_eq_zero.mp (Nat.le_zero.mp hl)
    subst this
    simp [scanStr] at h
  | succ m ih =>
    intro l hl s r k h hk
    rw [scanStr.eq_def] at h
    split at h
    · exact absurd h (by simp)
    · rename_i x rest
      simp only [Option.some.injEq, Prod.mk.injEq] at h
      obtain ⟨hs, hr⟩ := h
      subst hs
      subst hr
      rw [cutL_cons _ _ _ hk, scanStr_quote_eq]
    · rename_i x c1 c2 c3 c4 rest
      split at h
      · exact absurd h (by simp)
      · rename_i nval hhex
        simp only [Option.map_eq_some'] at h
        obtain ⟨⟨s', r'⟩, hrec, hpair⟩ := h
        simp only [Prod.mk.injEq] at hpair
        obtain ⟨hs, hr⟩ := hpair
        subst hs
        subst hr
        have hrk : k ≤ rest.length := by
          have := (scanStr_suffix rest s' r' hrec).1
          omega
        have hc : cutL k ('\\' :: 'u' :: c1 :: c2 :: c3 :: c4 :: rest) =
            '\\' :: 'u' :: c1 :: c2 :: c3 :: c4 :: cutL k rest := by
          rw [cutL_cons _ _ _ (by simp only [List.length_cons]; omega),
              cutL_cons _ _ _ (by simp only [List.length_cons]; omega),
              cutL_cons _ _ _ (by simp only [List.length_cons]; omega),
              cutL_cons _ _ _ (by simp only [List.length_cons]; omega),
              cutL_cons _ _ _ (by simp only [List.length_cons]; omega),
              cutL_cons _ _ _ hrk]
        have hlen : rest.length ≤ m := by
          simp only [List.length_cons] at hl
          omega
        rw [hc, scanStr_u_eq, hhex, ih rest hlen s' r' k hrec hk]
        rfl
    · rename_i x c rest hne
      split at h
      · rename_i e hesc
        simp only [Option.map_eq_some'] at h
        obtain ⟨⟨s', r'⟩, hrec, hpair⟩ := h
        simp only [Prod.mk.injEq] at hpair
        obtain ⟨hs, hr⟩ := hpair
        subst hs
        subst hr
        have hrk : k ≤ rest.length := by
          have := (scanStr_suffix rest s' r' hrec).1
          omega
        have hc : cutL k ('\\' :: c :: rest) = '\\' :: c :: cutL k rest := by
          rw [cutL_cons _ _ _ (by simp only [List.length_cons]; omega),
              cutL_cons _ _ _ hrk]
        have hlen : rest.length ≤ m := by
          simp only [List.length_cons] at hl
          omega
        rw [hc, scanStr_esc_eq c e _ hesc, ih rest hlen s' r' k hrec hk]
        rfl
      · exact absurd h (by simp)
    · rename_i x c rest hne1 hne2 hne3
      split at h
      · exact absurd h (by simp)
      · rename_i hctl
        simp only [Option.map_eq_some'] at h
        obtain ⟨⟨s', r'⟩, hrec, hpair⟩ := h
        simp only [Prod.mk.injEq] at hpair
        obtain ⟨hs, hr⟩ := hpair
        subst hs
        subst hr
        have hbs : ¬ c = '\\' := by
          intro hc
          subst hc
          cases rest with
          | nil => simp [scanStr] at hrec
          | cons d ds => exact hne3 d ds rfl rfl
        have hq : ¬ c = '"' := fun hc => hne1 hc
        have hrk : k ≤ rest.length := by
          have := (scanStr_suffix rest s' r' hrec).1
          omega
        have hc : cutL k (c :: rest) = c :: cutL k rest := cutL_cons _ _ _ hrk
        have hlen : rest.length ≤ m := by
          simp only [List.length_cons] at hl
          omega
        rw [hc, scanStr_plain_eq c _ hq hbs hctl, ih rest hlen s' r' k hrec hk]
        rfl

theorem scanStr_cutL (l s r : List Char) (k : Nat) (h : scanStr l = some (s, r))
    (hk : k ≤ r.length) : scanStr (cutL k l) = some (s, cutL k r) :=
  scanStr_cutL_aux l.length l le_rfl s r k h hk

/-! Facts about the number lexer and the literal reader. -/

theorem cutL_ge (l : List Char) (k : Nat) (h : l.length ≤ k) : cutL k l = [] := by
  simp [cutL, Nat.sub_eq_zero_of_le h]

theorem cutL_pre (k : Nat) (l : List Char) : cutL k l <+: l :=
  List.take_prefix _ l

/-- A nonempty list of digit-ending shape appended after anything still has
a digit-ending shape. -/
theorem endsDigit_append (a b : List Char) (h : ∃ x c, b = x ++ [c] ∧ c.isDigit = true) :
    ∃ x c, a ++ b = x ++ [c] ∧ c.isDigit = true := by
  obtain ⟨x, c, hb, hc⟩ := h
  exact ⟨a ++ x, c, by simp [hb], hc⟩

theorem endsDigit_of_all (xs : List Char) (hne : xs ≠ [])
    (hall : ∀ a ∈ xs, a.isDigit = true) :
    ∃ x c, xs = x ++ [c] ∧ c.isDigit = true :=
  ⟨xs.dropLast, xs.getLast hne, (List.dropLast_append_getLast hne).symm,
    hall _ (List.getLast_mem hne)⟩

theorem lexIntPart_zero_eq (rest : List Char) :
    lexIntPart ('0' :: rest) = some (['0'], rest) := rfl

theorem lexIntPart_cons_eq (c : Char) (rest : List Char) (h0 : c ≠ '0') :
    lexIntPart (c :: rest) =
      if c.isDigit then
        some (c :: rest.takeWhile Char.isDigit, rest.dropWhile Char.isDigit)
      else none := by
  rw [lexIntPart.eq_def]
  split
  · rename_i heq
    exact absurd heq (List.cons_ne_nil _ _)
  · rename_i rest1 heq
    injection heq with hc hrest
    exact absurd hc h0
  · rename_i c1 rest1 hne heq
    injection heq with hc hrest
    subst hc
    subst hrest
    rfl

theorem lexIntPart_split (l ip r : List Char) (h : lexIntPart l = some (ip, r)) :
    l = ip ++ r ∧ ip ≠ [] ∧ (∃ x c, ip = x ++ [c] ∧ c.isDigit = true) := by
  rw [lexIntPart.eq_def] at h
  split at h
  · exact absurd h (by simp)
  · rename_i rest
    simp only [Option.some.injEq, Prod.mk.injEq] at h
    obtain ⟨hip, hr⟩ := h
    subst hip
    subst hr
    exact ⟨rfl, by simp, ⟨[], '0', rfl, by decide⟩⟩
  · rename_i c rest hne
    split at h
    · rename_i hdig
      simp only [Option.some.injEq, Prod.mk.injEq] at h
      obtain ⟨hip, hr⟩ := h
      subst hip
      subst hr
      refine ⟨by simp [List.takeWhile_append_dropWhile], by simp, ?_⟩
      rcases Decidable.em (rest.takeWhile Char.isDigit = []) with he | he
      · rw [he]
        exact ⟨[], c, rfl, hdig⟩
      · have : ∃ x d, rest.takeWhile Char.isDigit = x ++ [d] ∧ d.isDigit = true :=
          endsDigit_of_all _ he (fun a ha => List.mem_takeWhile_imp ha)
        exact endsDigit_append [c] _ this
    · exact absurd h (by simp)

theorem lexIntPart_cutL (l ip r : List Char) (k : Nat)
    (h : lexIntPart l = some (ip, r)) (hk : k ≤ r.length) :
    lexIntPart (cutL k l) = some (ip, cutL k r) := by
  rw [lexIntPart.eq_def] at h
  split at h
  · exact absurd h (by simp)
  · rename_i rest
    simp only [Option.some.injEq, Prod.mk.injEq] at h
    obtain ⟨hip, hr⟩ := h
    subst hip
    subst hr
    rw [cutL_cons _ _ _ hk, lexIntPart_zero_eq]
  · rename_i c rest hne
    split at h
    · rename_i hdig
      simp only [Option.some.injEq, Prod.mk.injEq] at h
      obtain ⟨hip, hr⟩ := h
      subst hip
      subst hr
      have hc0 : c ≠ '0' := hne
      have hkrest : k ≤ rest.length := by
        have := (List.dropWhile_suffix (l := rest) Char.isDigit).length_le
        omega
      rw [cutL_cons _ _ _ hkrest, lexIntPart_cons_eq c _ hc0, if_pos hdig,
        takeWhile_cutL Char.isDigit rest k hk, dropWhile_cutL Char.isDigit rest k hk]
    · exact absurd h (by simp)

theorem lexFrac_split (l : List Char) :
    l = (lexFrac l).1 ++ (lexFrac l).2 ∧
      ((lexFrac l).1 = [] ∨ ∃ x c, (lexFrac l).1 = x ++ [c] ∧ c.isDigit = true) := by
  rw [lexFrac.eq_def]
  split
  · rename_i rest
    split
    · exact ⟨rfl, Or.inl rfl⟩
    · rename_i hne
      refine ⟨by simp [List.takeWhile_append_dropWhile], Or.inr ?_⟩
      exact endsDigit_append ['.'] _
        (endsDigit_of_all _ hne (fun a ha => List.mem_takeWhile_imp ha))
  · exact ⟨rfl, Or.inl rfl⟩

theorem takeWhile_cons_nil (p : Char → Bool) (d : Char) (t : List Char)
    (hd : p d = false) : (d :: t).takeWhile p = [] := by
  simp [List.takeWhile_cons, hd]

theorem takeWhile_ne_nil_head (p : Char → Bool) (m : List Char)
    (h : m.takeWhile p ≠ []) : ∃ d t, m = d :: t ∧ p d = true := by
  rcases m with _ | ⟨d, t⟩
  · simp at h
  · refine ⟨d, t, rfl, ?_⟩
    by_contra hd
    simp only [List.takeWhile_cons, Bool.not_eq_true] at h hd
    rw [hd] at h
    simp at h

theorem prefix_cons2 (m' m : List Char) (a b : Char) (t : List Char)
    (hp : m' <+: m) (hm : m' = a :: b :: t) : ∃ t', m = a :: b :: t' := by
  subst hm
  obtain ⟨u, hu⟩ := hp
  exact ⟨t ++ u, by simp [← hu]⟩

theorem prefix_cons3 (m' m : List Char) (a b c : Char) (t : List Char)
    (hp : m' <+: m) (hm : m' = a :: b :: c :: t) : ∃ t', m = a :: b :: c :: t' := by
  subst hm
  obtain ⟨u, hu⟩ := hp
  exact ⟨t ++ u, by simp [← hu]⟩

/-- Absence of a fraction start `.digit`. -/
def NoFracStart (m : List Char) : Prop :=
  ∀ d t, m = '.' :: d :: t → d.isDigit = false

theorem lexFrac_eq_nil (m : List Char) (h : NoFracStart m) : lexFrac m = ([], m) := by
  rw [lexFrac.eq_def]
  split
  · rename_i rest
    split
    · rfl
    · rename_i hne
      obtain ⟨d, t, hrest, hd⟩ := takeWhile_ne_nil_head Char.isDigit rest hne
      subst hrest
      exact absurd (h d t rfl) (by simp [hd])
  · rfl

theorem noFracStart_of_nil (m : List Char) (h : lexFrac m = ([], m)) :
    NoFracStart m := by
  intro d t hm
  subst hm
  by_contra hd
  simp only [Bool.not_eq_false] at hd
  rw [lexFrac.eq_def] at h
  split at h
  · rename_i rest heq
    injection heq with h1 h2
    subst h2
    split at h
    · rename_i hnil
      rw [List.takeWhile_cons, hd] at hnil
      exact absurd hnil (by simp)
    · simp only [Prod.mk.injEq] at h
      exact absurd h.1 (by simp)
  · rename_i hne
    exact hne (d :: t) rfl

theorem noFracStart_pre (m m' : List Char) (h : NoFracStart m) (hp : m' <+: m) :
    NoFracStart m' := by
  intro d t hm'
  obtain ⟨t', ht'⟩ := prefix_cons2 m' m '.' d t hp hm'
  exact h d t' ht'

theorem lexFrac_no_consume (l : List Char) (h : lexFrac l = ([], l)) (k : Nat) :
    lexFrac (cutL k l) = ([], cutL k l) :=
  lexFrac_eq_nil _ (noFracStart_pre l _ (noFracStart_of_nil l h) (cutL_pre k l))

theorem lexFrac_dot_eq (rest : List Char) :
    lexFrac ('.' :: rest) =
      if rest.takeWhile Char.isDigit = [] then ([], '.' :: rest)
      else ('.' :: rest.takeWhile Char.isDigit, rest.dropWhile Char.isDigit) := rfl

theorem lexFrac_cutL_consume (rest : List Char) (k : Nat)
    (hds : rest.takeWhile Char.isDigit ≠ [])
    (hk : k ≤ (rest.dropWhile Char.isDigit).length) :
    lexFrac (cutL k ('.' :: rest)) =
      ('.' :: rest.takeWhile Char.isDigit, cutL k (rest.dropWhile Char.isDigit)) := by
  have hkrest : k ≤ rest.length := by
    have := (List.dropWhile_suffix (l := rest) Char.isDigit).length_le
    omega
  rw [cutL_cons _ _ _ hkrest, lexFrac_dot_eq,
    takeWhile_cutL Char.isDigit rest k hk, dropWhile_cutL Char.isDigit rest k hk,
    if_neg hds]

theorem digit_not_sign (s : Char) (h : s.isDigit = true) : ¬(s = '+' ∨ s = '-') := by
  rintro (rfl | rfl) <;> exact absurd h (by decide)

/-- Absence of an exponent start `[eE]` followed by a digit, or by a sign
and a digit. -/
def NoExpStart (m : List Char) : Prop :=
  (∀ c s t, m = c :: s :: t → (c = 'e' ∨ c = 'E') → s.isDigit = false) ∧
  (∀ c s d t, m = c :: s :: d :: t → (c = 'e' ∨ c = 'E') → (s = '+' ∨ s = '-') →
    d.isDigit = false)

theorem lexExp_cons2_eq (c s : Char) (rest : List Char) :
    lexExp (c :: s :: rest) =
      if c = 'e' ∨ c = 'E' then
        if s = '+' ∨ s = '-' then
          if rest.takeWhile Char.isDigit = [] then ([], c :: s :: rest)
          else (c :: s :: rest.takeWhile Char.isDigit, rest.dropWhile Char.isDigit)
        else
          if (s :: rest).takeWhile Char.isDigit = [] then ([], c :: s :: rest)
          else (c :: (s :: rest).takeWhile Char.isDigit,
                (s :: rest).dropWhile Char.isDigit)
      else ([], c :: s :: rest) := rfl

theorem lexExp_eq_nil (m : List Char) (h : NoExpStart m) : lexExp m = ([], m) := by
  rw [lexExp.eq_def]
  split
  · rename_i c s rest
    by_cases hce : c = 'e' ∨ c = 'E'
    · rw [if_pos hce]
      by_cases hs : s = '+' ∨ s = '-'
      · rw [if_pos hs]
        have hnil : rest.takeWhile Char.isDigit = [] := by
          cases hrest : rest with
          | nil => simp
          | cons d t =>
            exact takeWhile_cons_nil _ d t (h.2 c s d t (by rw [hrest]) hce hs)
        rw [if_pos hnil]
      · rw [if_neg hs]
        have hnil : (s :: rest).takeWhile Char.isDigit = [] :=
          takeWhile_cons_nil _ s rest (h.1 c s rest rfl hce)
        rw [if_pos hnil]
    · rw [if_neg hce]
  · rfl

theorem noExpStart_of_nil (m : List Char) (h : lexExp m = ([], m)) :
    NoExpStart m := by
  constructor
  · intro c s t hm hce
    by_contra hs
    simp only [Bool.not_eq_false] at hs
    subst hm
    rw [lexExp_cons2_eq, if_pos hce, if_neg (digit_not_sign s hs)] at h
    rw [List.takeWhile_cons, hs] at h
    simp only [if_true] at h
    split at h
    · rename_i hbad
      exact absurd hbad (by simp)
    · simp only [Prod.mk.injEq] at h
      exact absurd h.1 (by simp)
  · intro c s d t hm hce hsign
    by_contra hd
    simp only [Bool.not_eq_false] at hd
    subst hm
    rw [lexExp_cons2_eq, if_pos hce, if_pos hsign] at h
    rw [List.takeWhile_cons, hd] at h
    simp only [if_true] at h
    split at h
    · rename_i hbad
      exact absurd hbad (by simp)
    · simp only [Prod.mk.injEq] at h
      exact absurd h.1 (by simp)

theorem noExpStart_pre (m m' : List Char) (h : NoExpStart m) (hp : m' <+: m) :
    NoExpStart m' := by
  constructor
  · intro c s t hm'
    obtain ⟨t', ht'⟩ := prefix_cons2 m' m c s t hp hm'
    exact h.1 c s t' ht'
  · intro c s d t hm'
    obtain ⟨t', ht'⟩ := prefix_cons3 m' m c s d t hp hm'
    exact h.2 c s d t' ht'

theorem lexExp_no_consume (l : List Char) (h : lexExp l = ([], l)) (k : Nat) :
    lexExp (cutL k l) = ([], cutL k l) :=
  lexExp_eq_nil _ (noExpStart_pre l _ (noExpStart_of_nil l h) (cutL_pre k l))

theorem lexExp_split (l : List Char) :
    l = (lexExp l).1 ++ (lexExp l).2 ∧
      ((lexExp l).1 = [] ∨ ∃ x c, (lexExp l).1 = x ++ [c] ∧ c.isDigit = true) := by
  rw [lexExp.eq_def]
  split
  · rename_i c s rest
    split
    · split
      · split
        · exact ⟨rfl, Or.inl rfl⟩
        · rename_i hds
          refine ⟨?_, Or.inr ?_⟩
          · simp only
            conv_lhs => rw [← List.takeWhile_append_dropWhile Char.isDigit rest]
            simp
          · exact endsDigit_append [c, s] _
              (endsDigit_of_all _ hds (fun a ha => List.mem_takeWhile_imp ha))
      · split
        · exact ⟨rfl, Or.inl rfl⟩
        · rename_i hds
          refine ⟨?_, Or.inr ?_⟩
          · simp only
            conv_lhs => rw [show s :: rest =
              (s :: rest).takeWhile Char.isDigit ++ (s :: rest).dropWhile Char.isDigit from
                (List.takeWhile_append_dropWhile Char.isDigit (s :: rest)).symm]
            rfl
          · exact endsDigit_append [c] _
              (endsDigit_of_all _ hds
                (fun a ha => List.mem_takeWhile_imp (l := s :: rest) ha))
    · exact ⟨rfl, Or.inl rfl⟩
  · exact ⟨rfl, Or.inl rfl⟩

theorem lexFrac_consume_inv (l : List Char) (h : (lexFrac l).1 ≠ []) :
    ∃ rest, l = '.' :: rest ∧ rest.takeWhile Char.isDigit ≠ [] := by
  rw [lexFrac.eq_def] at h
  split at h
  · rename_i rest
    split at h
    · exact absurd rfl h
    · rename_i hds
      exact ⟨rest, rfl, hds⟩
  · exact absurd rfl h

theorem lexExp_consume_inv (m : List Char) (h : (lexExp m).1 ≠ []) :
    ∃ c s rest, m = c :: s :: rest ∧ (c = 'e' ∨ c = 'E') ∧
      (((s = '+' ∨ s = '-') ∧ rest.takeWhile Char.isDigit ≠ []) ∨
       (¬(s = '+' ∨ s = '-') ∧ (s :: rest).takeWhile Char.isDigit ≠ [])) := by
  rw [lexExp.eq_def] at h
  split at h
  · rename_i c s rest
    split at h
    · rename_i hce
      split at h
      · rename_i hs
        split at h
        · exact absurd rfl h
        · rename_i hds
          exact ⟨c, s, rest, rfl, hce, Or.inl ⟨hs, hds⟩⟩
      · rename_i hs
        split at h
        · exact absurd rfl h
        · rename_i hds
          exact ⟨c, s, rest, rfl, hce, Or.inr ⟨hs, hds⟩⟩
    · exact absurd rfl h
  · exact absurd rfl h

theorem lexFrac_cutL_full (l : List Char) (k : Nat)
    (hk : k ≤ (lexFrac l).2.length) :
    lexFrac (cutL k l) = ((lexFrac l).1, cutL k (lexFrac l).2) := by
  by_cases hne : (lexFrac l).1 = []
  · have hl2 : (lexFrac l).2 = l := by
      have := (lexFrac_split l).1
      rw [hne] at this
      simpa using this.symm
    have hfl : lexFrac l = ([], l) := by
      have hp : ([], l) = ((lexFrac l).1, (lexFrac l).2) := by rw [hne, hl2]
      rw [hp]
    rw [lexFrac_no_consume l hfl k, hne, hl2]
  · obtain ⟨rest, hl, hds⟩ := lexFrac_consume_inv l hne
    subst hl
    have hfl : lexFrac ('.' :: rest) =
        ('.' :: rest.takeWhile Char.isDigit, rest.dropWhile Char.isDigit) := by
      rw [lexFrac_dot_eq, if_neg hds]
    rw [hfl] at hk ⊢
    exact lexFrac_cutL_consume rest k hds hk

theorem lexExp_cutL_full (m : List Char) (k : Nat)
    (hk : k ≤ (lexExp m).2.length) :
    lexExp (cutL k m) = ((lexExp m).1, cutL k (lexExp m).2) := by
  by_cases hne : (lexExp m).1 = []
  · have hl2 : (lexExp m).2 = m := by
      have := (lexExp_split m).1
      rw [hne] at this
      simpa using this.symm
    have hfl : lexExp m = ([], m) := by
      have hp : ([], m) = ((lexExp m).1, (lexExp m).2) := by rw [hne, hl2]
      rw [hp]
    rw [lexExp_no_consume m hfl k, hne, hl2]
  · obtain ⟨c, s, rest, hm, hce, hcase⟩ := lexExp_consume_inv m hne
    subst hm
    rcases hcase with ⟨hs, hds⟩ | ⟨hs, hds⟩
    · have hfl : lexExp (c :: s :: rest) =
          (c :: s :: rest.takeWhile Char.isDigit, rest.dropWhile Char.isDigit) := by
        rw [lexExp_cons2_eq, if_pos hce, if_pos hs, if_neg hds]
      rw [hfl] at hk ⊢
      simp only at hk
      have hkrest : k ≤ rest.length := by
        have := (List.dropWhile_suffix (l := rest) Char.isDigit).length_le
        omega
      rw [cutL_cons _ _ _ (by simp only [List.length_cons]; omega),
        cutL_cons _ _ _ hkrest, lexExp_cons2_eq, if_pos hce, if_pos hs,
        takeWhile_cutL Char.isDigit rest k hk, dropWhile_cutL Char.isDigit rest k hk,
        if_neg hds]
    · have hfl : lexExp (c :: s :: rest) =
          (c :: (s :: rest).takeWhile Char.isDigit,
            (s :: rest).dropWhile Char.isDigit) := by
        rw [lexExp_cons2_eq, if_pos hce, if_neg hs, if_neg hds]
      rw [hfl] at hk ⊢
      simp only at hk
      obtain ⟨d, t, hsr, hd⟩ := takeWhile_ne_nil_head Char.isDigit (s :: rest) hds
      injection hsr with hsd hrt
      subst hsd
      subst hrt
      have hdrop : (s :: rest).dropWhile Char.isDigit = rest.dropWhile Char.isDigit := by
        simp [List.dropWhile_cons, hd]
      rw [hdrop] at hk
      have hkrest : k ≤ rest.length := by
        have := (List.dropWhile_suffix (l := rest) Char.isDigit).length_le
        omega
      have hcut : cutL k (c :: s :: rest) = c :: cutL k (s :: rest) :=
        cutL_cons _ _ _ (by simp only [List.length_cons]; omega)
      have hcut2 : cutL k (s :: rest) = s :: cutL k rest := cutL_cons _ _ _ hkrest
      rw [hcut, hcut2, lexExp_cons2_eq, if_pos hce, if_neg hs, ← hcut2,
        takeWhile_cutL Char.isDigit (s :: rest) k (by rw [hdrop]; exact hk),
        dropWhile_cutL Char.isDigit (s :: rest) k (by rw [hdrop]; exact hk),
        if_neg hds]

theorem lexNumber_neg_eq (rest : List Char) :
    lexNumber ('-' :: rest) =
      match lexIntPart rest with
      | none => none
      | some (ip, r1) =>
          some ('-' :: (ip ++ (lexFrac r1).1 ++ (lexExp (lexFrac r1).2).1),
            (lexExp (lexFrac r1).2).2) := rfl

theorem lexNumber_cons_eq (c : Char) (cs : List Char) (h : c ≠ '-') :
    lexNumber (c :: cs) =
      match lexIntPart (c :: cs) with
      | none => none
      | some (ip, r1) =>
          some (ip ++ (lexFrac r1).1 ++ (lexExp (lexFrac r1).2).1,
            (lexExp (lexFrac r1).2).2) := by
  rw [lexNumber.eq_def]
  split
  · rename_i x rest heq
    injection heq with hc hrest
    exact absurd hc h
  · rfl

theorem lexIntPart_start (l : List Char) (p : List Char × List Char)
    (h : lexIntPart l = some p) : ∃ c cs, l = c :: cs ∧ c.isDigit = true := by
  rw [lexIntPart.eq_def] at h
  split at h
  · exact absurd h (by simp)
  · rename_i rest
    exact ⟨'0', rest, rfl, by decide⟩
  · rename_i c rest hne
    split at h
    · rename_i hdig
      exact ⟨c, rest, rfl, hdig⟩
    · exact absurd h (by simp)

theorem lexNumber_start (l : List Char) (p : List Char × List Char)
    (h : lexNumber l = some p) :
    ∃ c cs, l = c :: cs ∧ (c = '-' ∨ c.isDigit = true) := by
  rw [lexNumber.eq_def] at h
  split at h
  · rename_i rest
    exact ⟨'-', rest, rfl, Or.inl rfl⟩
  · rename_i hne
    split at h
    · exact absurd h (by simp)
    · rename_i ip r1 hip
      obtain ⟨c, cs, hl, hdig⟩ := lexIntPart_start l (ip, r1) hip
      exact ⟨c, cs, hl, Or.inr hdig⟩

theorem lexNumber_split (l lex r : List Char) (h : lexNumber l = some (lex, r)) :
    l = lex ++ r ∧ lex ≠ [] ∧ ∃ x c, lex = x ++ [c] ∧ c.isDigit = true := by
  rw [lexNumber.eq_def] at h
  split at h
  · rename_i rest
    split at h
    · exact absurd h (by simp)
    · rename_i ip r1 hip
      rcases hfr : lexFrac r1 with ⟨f1, f2⟩
      rcases hex : lexExp f2 with ⟨e1, e2⟩
      simp only [hfr, hex, Option.some.injEq, Prod.mk.injEq] at h
      obtain ⟨hlex, hr⟩ := h
      have hfs := lexFrac_split r1
      simp only [hfr] at hfs
      obtain ⟨hr1, hfend⟩ := hfs
      have hes := lexExp_split f2
      simp only [hex] at hes
      obtain ⟨hf2, heend⟩ := hes
      obtain ⟨hrest, hipne, hipend⟩ := lexIntPart_split rest ip r1 hip
      subst hlex
      subst hr
      refine ⟨?_, by simp, ?_⟩
      · rw [List.cons_append, hrest, hr1, hf2]
        simp [List.append_assoc]
      · rcases heend with he | he
        · rcases hfend with hf | hf
          · rw [he, hf]
            obtain ⟨x, c, hip1, hc⟩ := hipend
            exact ⟨'-' :: x, c, by simp [hip1], hc⟩
          · rw [he]
            obtain ⟨x, c, hf1, hc⟩ := hf
            exact ⟨'-' :: (ip ++ x), c, by simp [hf1], hc⟩
        · obtain ⟨x, c, he1, hc⟩ := he
          exact ⟨'-' :: (ip ++ f1 ++ x), c, by simp [he1], hc⟩
  · rename_i hne
    split at h
    · exact absurd h (by simp)
    · rename_i ip r1 hip
      rcases hfr : lexFrac r1 with ⟨f1, f2⟩
      rcases hex : lexExp f2 with ⟨e1, e2⟩
      simp only [hfr, hex, Option.some.injEq, Prod.mk.injEq] at h
      obtain ⟨hlex, hr⟩ := h
      have hfs := lexFrac_split r1
      simp only [hfr] at hfs
      obtain ⟨hr1, hfend⟩ := hfs
      have hes := lexExp_split f2
      simp only [hex] at hes
      obtain ⟨hf2, heend⟩ := hes
      obtain ⟨hrest, hipne, hipend⟩ := lexIntPart_split l ip r1 hip
      subst hlex
      subst hr
      refine ⟨?_, ?_, ?_⟩
      · rw [hrest, hr1, hf2]
        simp [List.append_assoc]
      · simp only [ne_eq, List.append_eq_nil]
        rintro ⟨⟨hip0, -⟩, -⟩
        exact hipne hip0
      · rcases heend with he | he
        · rcases hfend with hf | hf
          · rw [he, hf]
            obtain ⟨x, c, hip1, hc⟩ := hipend
            exact ⟨x, c, by simp [hip1], hc⟩
          · rw [he]
            obtain ⟨x, c, hf1, hc⟩ := hf
            exact ⟨ip ++ x, c, by simp [hf1], hc⟩
        · obtain ⟨x, c, he1, hc⟩ := he
          exact ⟨ip ++ f1 ++ x, c, by simp [he1], hc⟩

theorem lexNumber_cutL (l lex r : List Char) (k : Nat)
    (h : lexNumber l = some (lex, r)) (hk : k ≤ r.length) :
    lexNumber (cutL k l) = some (lex, cutL k r) := by
  rw [lexNumber.eq_def] at h
  split at h
  · rename_i rest
    split at h
    · exact absurd h (by simp)
    · rename_i ip r1 hip
      rcases hfr : lexFrac r1 with ⟨f1, f2⟩
      rcases hex : lexExp f2 with ⟨e1, e2⟩
      simp only [hfr, hex, Option.some.injEq, Prod.mk.injEq] at h
      obtain ⟨hlex, hr⟩ := h
      have hfs := lexFrac_split r1
      simp only [hfr] at hfs
      obtain ⟨hr1, -⟩ := hfs
      have hes := lexExp_split f2
      simp only [hex] at hes
      obtain ⟨hf2, -⟩ := hes
      obtain ⟨hrest, -, -⟩ := lexIntPart_split rest ip r1 hip
      subst hr
      have hk2 : k ≤ f2.length := by
        rw [hf2]
        simp only [List.length_append]
        omega
      have hk1 : k ≤ r1.length := by
        rw [hr1]
        simp only [List.length_append]
        omega
      have hkrest : k ≤ rest.length := by
        rw [hrest]
        simp only [List.length_append]
        omega
      have hfc : lexFrac (cutL k r1) = (f1, cutL k f2) := by
        have hh := lexFrac_cutL_full r1 k (by simp only [hfr]; exact hk2)
        simp only [hfr] at hh
        exact hh
      have hec : lexExp (cutL k f2) = (e1, cutL k e2) := by
        have hh := lexExp_cutL_full f2 k (by simp only [hex]; exact hk)
        simp only [hex] at hh
        exact hh
      rw [cutL_cons _ _ _ hkrest, lexNumber_neg_eq,
        lexIntPart_cutL rest ip r1 k hip hk1]
      simp only [hfc, hec]
      rw [← hlex]
  · rename_i hne
    split at h
    · exact absurd h (by simp)
    · rename_i ip r1 hip
      rcases hfr : lexFrac r1 with ⟨f1, f2⟩
      rcases hex : lexExp f2 with ⟨e1, e2⟩
      simp only [hfr, hex, Option.some.injEq, Prod.mk.injEq] at h
      obtain ⟨hlex, hr⟩ := h
      have hfs := lexFrac_split r1
      simp only [hfr] at hfs
      obtain ⟨hr1, -⟩ := hfs
      have hes := lexExp_split f2
      simp only [hex] at hes
      obtain ⟨hf2, -⟩ := hes
      obtain ⟨hl, -, -⟩ := lexIntPart_split l ip r1 hip
      obtain ⟨c, cs, hlc, hdig⟩ := lexIntPart_start l (ip, r1) hip
      have hcneg : c ≠ '-' := by
        intro hc
        subst hc
        exact hne cs hlc
      subst hr
      have hk2 : k ≤ f2.length := by
        rw [hf2]
        simp only [List.length_append]
        omega
      have hk1 : k ≤ r1.length := by
        rw [hr1]
        simp only [List.length_append]
        omega
      have hkl : k ≤ cs.length := by
        have : l.length = ip.length + r1.length := by rw [hl]; simp
        have hlen2 : l.length = cs.length + 1 := by rw [hlc]; simp
        have hipne : ip ≠ [] := (lexIntPart_split l ip r1 hip).2.1
        have : 1 ≤ ip.length := by
          rcases ip with _ | ⟨a, b⟩
          · exact absurd rfl hipne
          · simp
        omega
      have hfc : lexFrac (cutL k r1) = (f1, cutL k f2) := by
        have hh := lexFrac_cutL_full r1 k (by simp only [hfr]; exact hk2)
        simp only [hfr] at hh
        exact hh
      have hec : lexExp (cutL k f2) = (e1, cutL k e2) := by
        have hh := lexExp_cutL_full f2 k (by simp only [hex]; exact hk)
        simp only [hex] at hh
        exact hh
      have hcut : cutL k l = c :: cutL k cs := by
        rw [hlc]
        exact cutL_cons _ _ _ hkl
      have hipcut : lexIntPart (cutL k l) = some (ip, cutL k r1) := by
        rw [hcut, ← cutL_cons c cs k hkl, ← hlc]
        exact lexIntPart_cutL l ip r1 k hip hk1
      rw [hcut, lexNumber_cons_eq c _ hcneg, ← hcut, hipcut]
      simp only [hfc, hec]
      rw [← hlex]

theorem expectLit_split (pat l r : List Char) (h : expectLit pat l = some r) :
    l = pat ++ r := by
  unfold expectLit at h
  split at h
  · rename_i hp
    simp only [Option.some.injEq] at h
    subst h
    obtain ⟨t, ht⟩ := List.isPrefixOf_iff_prefix.mp hp
    rw [← ht, List.drop_left]
  · exact absurd h (by simp)

theorem expectLit_cutL (pat l r : List Char) (k : Nat)
    (h : expectLit pat l = some r) (hk : k ≤ r.length) :
    expectLit pat (cutL k l) = some (cutL k r) := by
  have hl := expectLit_split pat l r h
  subst hl
  rw [cutL_append pat r k hk]
  unfold expectLit
  rw [if_pos (List.isPrefixOf_iff_prefix.mpr (List.prefix_append pat _)),
    List.drop_left]

/-! One-step equations for the mutually recursive scanner. -/

theorem parseValue_zero (l : List Char) : parseValue 0 l = none := by
  rw [parseValue.eq_def]

theorem parseMembers_zero (l : List Char) (acc : List (List Char × Json)) :
    parseMembers 0 l acc = none := by
  rw [parseMembers.eq_def]

theorem parseElems_zero (l : List Char) (acc : List Json) :
    parseElems 0 l acc = none := by
  rw [parseElems.eq_def]

theorem parseValue_succ (f : Nat) (l : List Char) :
    parseValue (f + 1) l =
      match l with
      | '\x7b' :: rest =>
        match skipWs rest with
        | '\x7d' :: r => some (Json.obj [], r)
        | l1 => parseMembers f l1 []
      | '[' :: rest =>
        match skipWs rest with
        | ']' :: r => some (Json.arr [], r)
        | l1 =>
          match parseValue f l1 with
          | none => none
          | some (v, r) => parseElems f r [v]
      | '"' :: rest => (scanStr rest).map (fun p => (Json.str p.1, p.2))
      | 't' :: rest => (expectLit (str2list "rue") rest).map (fun r => (Json.bool true, r))
      | 'f' :: rest => (expectLit (str2list "alse") rest).map (fun r => (Json.bool false, r))
      | 'n' :: rest => (expectLit (str2list "ull") rest).map (fun r => (Json.null, r))
      | 'N' :: rest => (expectLit (str2list "aN") rest).map (fun r => (Json.num (str2list "NaN"), r))
      | 'I' :: rest =>
          (expectLit (str2list "nfinity") rest).map (fun r => (Json.num (str2list "Infinity"), r))
      | '-' :: 'I' :: rest =>
          (expectLit (str2list "nfinity") rest).map (fun r => (Json.num (str2list "-Infinity"), r))
      | _ => (lexNumber l).map (fun p => (Json.num p.1, p.2)) := by
  rw [parseValue.eq_def]

theorem parseMembers_succ (f : Nat) (l : List Char) (acc : List (List Char × Json)) :
    parseMembers (f + 1) l acc =
      match l with
      | '"' :: rest =>
        match scanStr rest with
        | none => none
        | some (k, r1) =>
          match skipWs r1 with
          | ':' :: r2 =>
            match parseValue f (skipWs r2) with
            | none => none
            | some (v, r3) =>
              match skipWs r3 with
              | ',' :: r4 => parseMembers f (skipWs r4) (objInsert acc k v)
              | '\x7d' :: r4 => some (Json.obj (objInsert acc k v), r4)
              | _ => none
          | _ => none
      | _ => none := by
  rw [parseMembers.eq_def]

theorem parseElems_succ (f : Nat) (r : List Char) (acc : List Json) :
    parseElems (f + 1) r acc =
      match skipWs r with
      | ',' :: r2 =>
        match parseValue f (skipWs r2) with
        | none => none
        | some (v, r3) => parseElems f r3 (acc ++ [v])
      | ']' :: r2 => some (Json.arr acc, r2)
      | _ => none := by
  rw [parseElems.eq_def]

/-! The scanner only ever consumes a nonempty prefix: the rest is a proper
suffix of the input. -/

theorem sl_trans (r b l : List Char) (h1 : r.length < b.length ∧ r <:+ b)
    (h2 : b.length ≤ l.length ∧ b <:+ l) : r.length < l.length ∧ r <:+ l :=
  ⟨by omega, h1.2.trans h2.2⟩

theorem sl_of_suffix (b l : List Char) (h : b <:+ l) :
    b.length ≤ l.length ∧ b <:+ l := ⟨h.length_le, h⟩

theorem sl_cons (c : Char) (rest r : List Char)
    (h : r.length < rest.length ∧ r <:+ rest) :
    r.length < (c :: rest).length ∧ r <:+ (c :: rest) :=
  sl_trans r rest (c :: rest) h (sl_of_suffix rest (c :: rest) ⟨[c], rfl⟩)

theorem suffix_cons_drop (rest r : List Char) (d : Char)
    (heq : skipWs rest = d :: r) : r.length < rest.length ∧ r <:+ rest := by
  have hsfx : (d :: r) <:+ rest := by
    rw [← heq]
    exact skipWs_suffix rest
  obtain ⟨x, hx⟩ := hsfx
  constructor
  · have := congrArg List.length hx
    simp only [List.length_append, List.length_cons] at this
    omega
  · exact ⟨x ++ [d], by simpa using hx⟩

theorem suffix_of_decomp (l pre r : List Char) (hl : l = pre ++ r)
    (hne : pre ≠ []) : r.length < l.length ∧ r <:+ l := by
  subst hl
  refine ⟨?_, List.suffix_append pre r⟩
  rcases pre with _ | ⟨a, b⟩
  · exact absurd rfl hne
  · simp only [List.length_append, List.length_cons]
    omega

theorem parse_suffix : ∀ fuel : Nat,
    (∀ l v r, parseValue fuel l = some (v, r) → r.length < l.length ∧ r <:+ l) ∧
    (∀ l acc v r, parseMembers fuel l acc = some (v, r) →
      r.length < l.length ∧ r <:+ l) ∧
    (∀ l acc v r, parseElems fuel l acc = some (v, r) →
      r.length < l.length ∧ r <:+ l) := by
  intro fuel
  induction fuel with
  | zero =>
    refine ⟨fun l v r h => ?_, fun l acc v r h => ?_, fun l acc v r h => ?_⟩
    · rw [parseValue_zero] at h
      exact absurd h (by simp)
    · rw [parseMembers_zero] at h
      exact absurd h (by simp)
    · rw [parseElems_zero] at h
      exact absurd h (by simp)
  | succ f ih =>
    obtain ⟨ihv, ihm, ihe⟩ := ih
    refine ⟨fun l v r h => ?_, fun l acc v r h => ?_, fun l acc v r h => ?_⟩
    · rw [parseValue_succ] at h
      split at h
      · rename_i rest
        split at h
        · rename_i r' heq
          simp only [Option.some.injEq, Prod.mk.injEq] at h
          obtain ⟨-, hr⟩ := h
          subst hr
          exact sl_cons _ _ _ (suffix_cons_drop rest r' '\x7d' heq)
        · rename_i hcond
          have hstep := ihm (skipWs rest) [] v r h
          exact sl_cons _ _ _ (sl_trans _ _ _ hstep
            (sl_of_suffix _ _ (skipWs_suffix rest)))
      · rename_i rest
        split at h
        · rename_i r' heq
          simp only [Option.some.injEq, Prod.mk.injEq] at h
          obtain ⟨-, hr⟩ := h
          subst hr
          exact sl_cons _ _ _ (suffix_cons_drop rest r' ']' heq)
        · rename_i hcond
          split at h
          · exact absurd h (by simp)
          · rename_i v1 r1 heq2
            have h1 := ihe r1 [v1] v r h
            have h2 := ihv (skipWs rest) v1 r1 heq2
            exact sl_cons _ _ _ (sl_trans _ _ _
              (sl_trans _ _ _ h1 ⟨le_of_lt h2.1, h2.2⟩)
              (sl_of_suffix _ _ (skipWs_suffix rest)))
      · rename_i rest
        simp only [Option.map_eq_some'] at h
        obtain ⟨⟨s', r'⟩, hrec, hpair⟩ := h
        simp only [Prod.mk.injEq] at hpair
        obtain ⟨-, hr⟩ := hpair
        subst hr
        exact sl_cons _ _ _ ⟨(scanStr_suffix rest s' r' hrec).1,
          (scanStr_suffix rest s' r' hrec).2⟩
      · rename_i rest
        simp only [Option.map_eq_some'] at h
        obtain ⟨r', hrec, hpair⟩ := h
        simp only [Prod.mk.injEq] at hpair
        obtain ⟨-, hr⟩ := hpair
        subst hr
        exact suffix_of_decomp _ ('t' :: str2list "rue") r'
          (by rw [expectLit_split _ _ _ hrec]; rfl) (by simp)
      · rename_i rest
        simp only [Option.map_eq_some'] at h
        obtain ⟨r', hrec, hpair⟩ := h
        simp only [Prod.mk.injEq] at hpair
        obtain ⟨-, hr⟩ := hpair
        subst hr
        exact suffix_of_decomp _ ('f' :: str2list "alse") r'
          (by rw [expectLit_split _ _ _ hrec]; rfl) (by simp)
      · rename_i rest
        simp only [Option.map_eq_some'] at h
        obtain ⟨r', hrec, hpair⟩ := h
        simp only [Prod.mk.injEq] at hpair
        obtain ⟨-, hr⟩ := hpair
        subst hr
        exact suffix_of_decomp _ ('n' :: str2list "ull") r'
          (by rw [expectLit_split _ _ _ hrec]; rfl) (by simp)
      · rename_i rest
        simp only [Option.map_eq_some'] at h
        obtain ⟨r', hrec, hpair⟩ := h
        simp only [Prod.mk.injEq] at hpair
        obtain ⟨-, hr⟩ := hpair
        subst hr
        exact suffix_of_decomp _ ('N' :: str2list "aN") r'
          (by rw [expectLit_split _ _ _ hrec]; rfl) (by simp)
      · rename_i rest
        simp only [Option.map_eq_some'] at h
        obtain ⟨r', hrec, hpair⟩ := h
        simp only [Prod.mk.injEq] at hpair
        obtain ⟨-, hr⟩ := hpair
        subst hr
        exact suffix_of_decomp _ ('I' :: str2list "nfinity") r'
          (by rw [expectLit_split _ _ _ hrec]; rfl) (by simp)
      · rename_i rest
        simp only [Option.map_eq_some'] at h
        obtain ⟨r', hrec, hpair⟩ := h
        simp only [Prod.mk.injEq] at hpair
        obtain ⟨-, hr⟩ := hpair
        subst hr
        exact suffix_of_decomp _ ('-' :: 'I' :: str2list "nfinity") r'
          (by rw [expectLit_split _ _ _ hrec]; rfl) (by simp)
      · simp only [Option.map_eq_some'] at h
        obtain ⟨⟨lex, r'⟩, hrec, hpair⟩ := h
        simp only [Prod.mk.injEq] at hpair
        obtain ⟨-, hr⟩ := hpair
        subst hr
        obtain ⟨hl, hlexne, -⟩ := lexNumber_split l lex r' hrec
        exact suffix_of_decomp l lex r' hl hlexne
    · rw [parseMembers_succ] at h
      split at h
      · rename_i rest
        split at h
        · exact absurd h (by simp)
        · rename_i k1 r1 heq1
          split at h
          · rename_i r2 heq2
            split at h
            · exact absurd h (by simp)
            · rename_i v1 r3 heq3
              have hup : r3.length < rest.length ∧ r3 <:+ rest := by
                have h3 := ihv (skipWs r2) v1 r3 heq3
                have h2 := suffix_cons_drop r1 r2 ':' heq2
                have h1 := scanStr_suffix rest k1 r1 heq1
                exact sl_trans _ _ _ (sl_trans _ _ _
                  ⟨h3.1, h3.2⟩ (sl_of_suffix _ _ (skipWs_suffix r2)))
                  ⟨by omega, h2.2.trans h1.2⟩
              split at h
              · rename_i r4 heq4
                have hin := ihm (skipWs r4) (objInsert acc k1 v1) v r h
                have h4 := suffix_cons_drop r3 r4 ',' heq4
                exact sl_cons _ _ _ (sl_trans _ _ _ (sl_trans _ _ _
                  (sl_trans _ _ _ hin (sl_of_suffix _ _ (skipWs_suffix r4)))
                  ⟨le_of_lt h4.1, h4.2⟩) ⟨le_of_lt hup.1, hup.2⟩)
              · rename_i r4 heq4
                simp only [Option.some.injEq, Prod.mk.injEq] at h
                obtain ⟨-, hr⟩ := h
                subst hr
                have h4 := suffix_cons_drop r3 r4 '\x7d' heq4
                exact sl_cons _ _ _ (sl_trans _ _ _ h4 ⟨le_of_lt hup.1, hup.2⟩)
              · exact absurd h (by simp)
          · exact absurd h (by simp)
      · exact absurd h (by simp)
    · rw [parseElems_succ] at h
      split at h
      · rename_i r2 heq
        split at h
        · exact absurd h (by simp)
        · rename_i v1 r3 heq2
          have hin := ihe r3 (acc ++ [v1]) v r h
          have h3 := ihv (skipWs r2) v1 r3 heq2
          have h2 := suffix_cons_drop l r2 ',' heq
          exact sl_trans _ _ _ (sl_trans _ _ _ (sl_trans _ _ _ hin
            ⟨le_of_lt h3.1, h3.2⟩) (sl_of_suffix _ _ (skipWs_suffix r2)))
            ⟨le_of_lt h2.1, h2.2⟩
      · rename_i r2 heq
        simp only [Option.some.injEq, Prod.mk.injEq] at h
        obtain ⟨-, hr⟩ := h
        subst hr
        exact suffix_cons_drop l r2 ']' heq
      · exact absurd h (by simp)

/-! The character just before the scanner rest is never whitespace: a value
always ends in a digit, a quote, a closing bracket or a letter. -/

theorem digit_not_pyWs (c : Char) (h : c.isDigit = true) : pyIsSpace c = false := by
  cases hp : pyIsSpace c
  · rfl
  · have hs := pyWs_not_isStart c hp
    simp [isStart, h] at hs

theorem lastchar_skipWs (rest r : List Char) (d : Char) (heq : skipWs rest = d :: r)
    (hd : pyIsSpace d = false) :
    ∃ x e, rest = x ++ e :: r ∧ pyIsSpace e = false := by
  obtain ⟨y, hy⟩ := skipWs_suffix rest
  rw [heq] at hy
  exact ⟨y, d, hy.symm, hd⟩

theorem lastchar_lift_suffix (l m r : List Char) (hs : m <:+ l)
    (hd : ∃ x c, m = x ++ c :: r ∧ pyIsSpace c = false) :
    ∃ x c, l = x ++ c :: r ∧ pyIsSpace c = false := by
  obtain ⟨x, c, hdec, hc⟩ := hd
  obtain ⟨z, hz⟩ := hs
  refine ⟨z ++ x, c, ?_, hc⟩
  rw [← hz, hdec]
  simp

theorem parse_lastchar : ∀ fuel : Nat,
    (∀ l v r, parseValue fuel l = some (v, r) →
      ∃ x c, l = x ++ c :: r ∧ pyIsSpace c = false) ∧
    (∀ l acc v r, parseMembers fuel l acc = some (v, r) →
      ∃ x c, l = x ++ c :: r ∧ pyIsSpace c = false) ∧
    (∀ l acc v r, parseElems fuel l acc = some (v, r) →
      ∃ x c, l = x ++ c :: r ∧ pyIsSpace c = false) := by
  intro fuel
  induction fuel with
  | zero =>
    refine ⟨fun l v r h => ?_, fun l acc v r h => ?_, fun l acc v r h => ?_⟩
    · rw [parseValue_zero] at h
      exact absurd h (by simp)
    · rw [parseMembers_zero] at h
      exact absurd h (by simp)
    · rw [parseElems_zero] at h
      exact absurd h (by simp)
  | succ f ih =>
    obtain ⟨ihv, ihm, ihe⟩ := ih
    refine ⟨fun l v r h => ?_, fun l acc v r h => ?_, fun l acc v r h => ?_⟩
    · rw [parseValue_succ] at h
      split at h
      · rename_i rest
        split at h
        · rename_i r' heq
          simp only [Option.some.injEq, Prod.mk.injEq] at h
          obtain ⟨-, hr⟩ := h
          subst hr
          exact lastchar_lift_suffix _ rest r' ⟨['\x7b'], rfl⟩
            (lastchar_skipWs rest r' '\x7d' heq (by decide))
        · rename_i hcond
          exact lastchar_lift_suffix _ rest r ⟨['\x7b'], rfl⟩
            (lastchar_lift_suffix rest (skipWs rest) r (skipWs_suffix rest)
              (ihm (skipWs rest) [] v r h))
      · rename_i rest
        split at h
        · rename_i r' heq
          simp only [Option.some.injEq, Prod.mk.injEq] at h
          obtain ⟨-, hr⟩ := h
          subst hr
          exact lastchar_lift_suffix _ rest r' ⟨['['], rfl⟩
            (lastchar_skipWs rest r' ']' heq (by decide))
        · rename_i hcond
          split at h
          · exact absurd h (by simp)
          · rename_i v1 r1 heq2
            have hr1 : r1 <:+ rest :=
              (((parse_suffix f).1 (skipWs rest) v1 r1 heq2).2).trans
                (skipWs_suffix rest)
            exact lastchar_lift_suffix _ rest r ⟨['['], rfl⟩
              (lastchar_lift_suffix rest r1 r hr1 (ihe r1 [v1] v r h))
      · rename_i rest
        simp only [Option.map_eq_some'] at h
        obtain ⟨⟨s', r'⟩, hrec, hpair⟩ := h
        simp only [Prod.mk.injEq] at hpair
        obtain ⟨-, hr⟩ := hpair
        subst hr
        obtain ⟨x, hx⟩ := scanStr_quote_split rest s' r' hrec
        exact ⟨'"' :: x, '"', by rw [hx]; simp, by decide⟩
      · rename_i rest
        simp only [Option.map_eq_some'] at h
        obtain ⟨r', hrec, hpair⟩ := h
        simp only [Prod.mk.injEq] at hpair
        obtain ⟨-, hr⟩ := hpair
        subst hr
        exact ⟨['t', 'r', 'u'], 'e',
          by rw [expectLit_split _ _ _ hrec]; rfl, by decide⟩
      · rename_i rest
        simp only [Option.map_eq_some'] at h
        obtain ⟨r', hrec, hpair⟩ := h
        simp only [Prod.mk.injEq] at hpair
        obtain ⟨-, hr⟩ := hpair
        subst hr
        exact ⟨['f', 'a', 'l', 's'], 'e',
          by rw [expectLit_split _ _ _ hrec]; rfl, by decide⟩
      · rename_i rest
        simp only [Option.map_eq_some'] at h
        obtain ⟨r', hrec, hpair⟩ := h
        simp only [Prod.mk.injEq] at hpair
        obtain ⟨-, hr⟩ := hpair
        subst hr
        exact ⟨['n', 'u', 'l'], 'l',
          by rw [expectLit_split _ _ _ hrec]; rfl, by decide⟩
      · rename_i rest
        simp only [Option.map_eq_some'] at h
        obtain ⟨r', hrec, hpair⟩ := h
        simp only [Prod.mk.injEq] at hpair
        obtain ⟨-, hr⟩ := hpair
        subst hr
        exact ⟨['N', 'a'], 'N',
          by rw [expectLit_split _ _ _ hrec]; rfl, by decide⟩
      · rename_i rest
        simp only [Option.map_eq_some'] at h
        obtain ⟨r', hrec, hpair⟩ := h
        simp only [Prod.mk.injEq] at hpair
        obtain ⟨-, hr⟩ := hpair
        subst hr
        exact ⟨['I', 'n', 'f', 'i', 'n', 'i', 't'], 'y',
          by rw [expectLit_split _ _ _ hrec]; rfl, by decide⟩
      · rename_i rest
        simp only [Option.map_eq_some'] at h
        obtain ⟨r', hrec, hpair⟩ := h
        simp only [Prod.mk.injEq] at hpair
        obtain ⟨-, hr⟩ := hpair
        subst hr
        exact ⟨['-', 'I', 'n', 'f', 'i', 'n', 'i', 't'], 'y',
          by rw [expectLit_split _ _ _ hrec]; rfl, by decide⟩
      · simp only [Option.map_eq_some'] at h
        obtain ⟨⟨lex, r'⟩, hrec, hpair⟩ := h
        simp only [Prod.mk.injEq] at hpair
        obtain ⟨-, hr⟩ := hpair
        subst hr
        obtain ⟨hl, -, x, c, hlex, hdig⟩ := lexNumber_split l lex r' hrec
        exact ⟨x, c, by rw [hl, hlex]; simp, digit_not_pyWs c hdig⟩
    · rw [parseMembers_succ] at h
      split at h
      · rename_i rest
        split at h
        · exact absurd h (by simp)
        · rename_i k1 r1 heq1
          split at h
          · rename_i r2 heq2
            split at h
            · exact absurd h (by simp)
            · rename_i v1 r3 heq3
              have hr3 : r3 <:+ ('"' :: rest) := by
                refine (((parse_suffix f).1 (skipWs r2) v1 r3 heq3).2).trans ?_
                refine (skipWs_suffix r2).trans ?_
                have h2 : r2 <:+ skipWs r1 := by
                  rw [heq2]
                  exact ⟨[':'], rfl⟩
                refine (h2.trans (skipWs_suffix r1)).trans ?_
                exact ((scanStr_suffix rest k1 r1 heq1).2).trans ⟨['"'], rfl⟩
              split at h
              · rename_i r4 heq4
                have hs4 : skipWs r4 <:+ r3 := by
                  refine (skipWs_suffix r4).trans ?_
                  have h4 : r4 <:+ skipWs r3 := by
                    rw [heq4]
                    exact ⟨[','], rfl⟩
                  exact h4.trans (skipWs_suffix r3)
                exact lastchar_lift_suffix _ r3 r hr3
                  (lastchar_lift_suffix r3 (skipWs r4) r hs4
                    (ihm (skipWs r4) (objInsert acc k1 v1) v r h))
              · rename_i r4 heq4
                simp only [Option.some.injEq, Prod.mk.injEq] at h
                obtain ⟨-, hr⟩ := h
                subst hr
                exact lastchar_lift_suffix _ r3 r4 hr3
                  (lastchar_skipWs r3 r4 '\x7d' heq4 (by decide))
              · exact absurd h (by simp)
          · exact absurd h (by simp)
      · exact absurd h (by simp)
    · rw [parseElems_succ] at h
      split at h
      · rename_i r2 heq
        split at h
        · exact absurd h (by simp)
        · rename_i v1 r3 heq2
          have hr3 : r3 <:+ l := by
            refine (((parse_suffix f).1 (skipWs r2) v1 r3 heq2).2).trans ?_
            refine (skipWs_suffix r2).trans ?_
            have h2 : r2 <:+ skipWs l := by
              rw [heq]
              exact ⟨[','], rfl⟩
            exact h2.trans (skipWs_suffix l)
          exact lastchar_lift_suffix l r3 r hr3 (ihe r3 (acc ++ [v1]) v r h)
      · rename_i r2 heq
        simp only [Option.some.injEq, Prod.mk.injEq] at h
        obtain ⟨-, hr⟩ := h
        subst hr
        exact lastchar_skipWs l r2 ']' heq (by decide)
      · exact absurd h (by simp)

/-! Removing characters strictly inside the returned rest commutes with the
scanner: parsing only ever inspects the consumed prefix and the rest. -/

theorem cutL_head (k : Nat) (l : List Char) (c : Char) (cs : List Char)
    (h : cutL k l = c :: cs) : ∃ t, l = c :: t := by
  obtain ⟨t, ht⟩ := cutL_pre k l
  rw [h] at ht
  exact ⟨cs ++ t, by rw [← ht]; rfl⟩

theorem parseValue_nil (f : Nat) : parseValue f [] = none := by
  cases f with
  | zero => exact parseValue_zero []
  | succ g => rw [parseValue_succ]; rfl

theorem parse_cutL : ∀ fuel : Nat,
    (∀ l v r k, parseValue fuel l = some (v, r) → k ≤ r.length →
      parseValue fuel (cutL k l) = some (v, cutL k r)) ∧
    (∀ l acc v r k, parseMembers fuel l acc = some (v, r) → k ≤ r.length →
      parseMembers fuel (cutL k l) acc = some (v, cutL k r)) ∧
    (∀ l acc v r k, parseElems fuel l acc = some (v, r) → k ≤ r.length →
      parseElems fuel (cutL k l) acc = some (v, cutL k r)) := by
  intro fuel
  induction fuel with
  | zero =>
    refine ⟨fun l v r k h hk => ?_, fun l acc v r k h hk => ?_,
      fun l acc v r k h hk => ?_⟩
    · rw [parseValue_zero] at h
      exact absurd h (by simp)
    · rw [parseMembers_zero] at h
      exact absurd h (by simp)
    · rw [parseElems_zero] at h
      exact absurd h (by simp)
  | succ f ih =>
    obtain ⟨ihv, ihm, ihe⟩ := ih
    refine ⟨fun l v r k h hk => ?_, fun l acc v r k h hk => ?_,
      fun l acc v r k h hk => ?_⟩
    · rw [parseValue_succ] at h
      split at h
      · rename_i rest
        split at h
        · rename_i r' heq
          simp only [Option.some.injEq, Prod.mk.injEq] at h
          obtain ⟨hv, hr⟩ := h
          subst hv
          subst hr
          have lb := (suffix_cons_drop rest r' '\x7d' heq).1
          have e0 : cutL k ('\x7b' :: rest) = '\x7b' :: cutL k rest :=
            cutL_cons _ _ _ (by omega)
          have e1 : skipWs (cutL k rest) = '\x7d' :: cutL k r' := by
            rw [skipWs_cutL rest k (by rw [heq]; simp only [List.length_cons]; omega),
              heq, cutL_cons _ _ _ hk]
          rw [e0, parseValue_succ]
          simp only [e1]
        · rename_i hcond
          have lb := ((parse_suffix f).2.1 (skipWs rest) [] v r h).1
          have hne : skipWs rest ≠ [] := by
            intro hnil
            rw [hnil] at lb
            simp at lb
          obtain ⟨d, t, hdt⟩ := List.exists_cons_of_ne_nil hne
          have hd : d ≠ '\x7d' := by
            intro hdeq
            subst hdeq
            exact hcond t (by rw [hdt])
          have e0 : cutL k ('\x7b' :: rest) = '\x7b' :: cutL k rest :=
            cutL_cons _ _ _ (by
              have := (skipWs_suffix rest).length_le
              omega)
          have e1 : skipWs (cutL k rest) = d :: cutL k t := by
            rw [skipWs_cutL rest k (by omega), hdt,
              cutL_cons _ _ _ (by rw [hdt] at lb; simp only [List.length_cons] at lb; omega)]
          rw [e0, parseValue_succ]
          simp only [e1]
          split
          · rename_i rr heq2
            injection heq2 with h1 h2
            exact absurd h1 hd
          · have : d :: cutL k t = cutL k (skipWs rest) := by
              rw [hdt, cutL_cons _ _ _ (by rw [hdt] at lb; simp only [List.length_cons] at lb; omega)]
            rw [this]
            exact ihm (skipWs rest) [] v r k h hk
      · rename_i rest
        split at h
        · rename_i r' heq
          simp only [Option.some.injEq, Prod.mk.injEq] at h
          obtain ⟨hv, hr⟩ := h
          subst hv
          subst hr
          have lb := (suffix_cons_drop rest r' ']' heq).1
          have e0 : cutL k ('[' :: rest) = '[' :: cutL k rest :=
            cutL_cons _ _ _ (by omega)
          have e1 : skipWs (cutL k rest) = ']' :: cutL k r' := by
            rw [skipWs_cutL rest k (by rw [heq]; simp only [List.length_cons]; omega),
              heq, cutL_cons _ _ _ hk]
          rw [e0, parseValue_succ]
          simp only [e1]
        · rename_i hcond
          split at h
          · exact absurd h (by simp)
          · rename_i v1 r1 heq2
            have lbv := ((parse_suffix f).1 (skipWs rest) v1 r1 heq2).1
            have lbe := ((parse_suffix f).2.2 r1 [v1] v r h).1
            have hne : skipWs rest ≠ [] := by
              intro hnil
              rw [hnil, parseValue_nil] at heq2
              exact absurd heq2 (by simp)
            obtain ⟨d, t, hdt⟩ := List.exists_cons_of_ne_nil hne
            have hd : d ≠ ']' := by
              intro hdeq
              subst hdeq
              exact hcond t (by rw [hdt])
            have e0 : cutL k ('[' :: rest) = '[' :: cutL k rest :=
              cutL_cons _ _ _ (by
                have := (skipWs_suffix rest).length_le
                omega)
            have e1 : skipWs (cutL k rest) = d :: cutL k t := by
              rw [skipWs_cutL rest k (by omega), hdt,
                cutL_cons _ _ _ (by rw [hdt] at lbv; simp only [List.length_cons] at lbv; omega)]
            have ecut : d :: cutL k t = cutL k (skipWs rest) := by
              rw [hdt, cutL_cons _ _ _ (by rw [hdt] at lbv; simp only [List.length_cons] at lbv; omega)]
            have e2 : parseValue f (cutL k (skipWs rest)) = some (v1, cutL k r1) :=
              ihv (skipWs rest) v1 r1 k heq2 (by omega)
            have e3 : parseElems f (cutL k r1) [v1] = some (v, cutL k r) :=
              ihe r1 [v1] v r k h hk
            rw [e0, parseValue_succ]
            simp only [e1]
            split
            · rename_i rr heq3
              injection heq3 with h1 h2
              exact absurd h1 hd
            · rw [ecut]
              simp only [e2, e3]
      · rename_i rest
        simp only [Option.map_eq_some'] at h
        obtain ⟨⟨s', r'⟩, hrec, hpair⟩ := h
        simp only [Prod.mk.injEq] at hpair
        obtain ⟨hv, hr⟩ := hpair
        subst hv
        subst hr
        have lb := (scanStr_suffix rest s' r' hrec).1
        have e0 : cutL k ('"' :: rest) = '"' :: cutL k rest :=
          cutL_cons _ _ _ (by omega)
        rw [e0, parseValue_succ]
        simp only [scanStr_cutL rest s' r' k hrec hk, Option.map_some']
      · rename_i rest
        simp only [Option.map_eq_some'] at h
        obtain ⟨r', hrec, hpair⟩ := h
        simp only [Prod.mk.injEq] at hpair
        obtain ⟨hv, hr⟩ := hpair
        subst hv
        subst hr
        have hsp := expectLit_split _ _ _ hrec
        have e0 : cutL k ('t' :: rest) = 't' :: cutL k rest :=
          cutL_cons _ _ _ (by rw [hsp]; simp only [List.length_append]; omega)
        rw [e0, parseValue_succ]
        simp only [expectLit_cutL _ _ _ k hrec hk, Option.map_some']
      · rename_i rest
        simp only [Option.map_eq_some'] at h
        obtain ⟨r', hrec, hpair⟩ := h
        simp only [Prod.mk.injEq] at hpair
        obtain ⟨hv, hr⟩ := hpair
        subst hv
        subst hr
        have hsp := expectLit_split _ _ _ hrec
        have e0 : cutL k ('f' :: rest) = 'f' :: cutL k rest :=
          cutL_cons _ _ _ (by rw [hsp]; simp only [List.length_append]; omega)
        rw [e0, parseValue_succ]
        simp only [expectLit_cutL _ _ _ k hrec hk, Option.map_some']
      · rename_i rest
        simp only [Option.map_eq_some'] at h
        obtain ⟨r', hrec, hpair⟩ := h
        simp only [Prod.mk.injEq] at hpair
        obtain ⟨hv, hr⟩ := hpair
        subst hv
        subst hr
        have hsp := expectLit_split _ _ _ hrec
        have e0 : cutL k ('n' :: rest) = 'n' :: cutL k rest :=
          cutL_cons _ _ _ (by rw [hsp]; simp only [List.length_append]; omega)
        rw [e0, parseValue_succ]
        simp only [expectLit_cutL _ _ _ k hrec hk, Option.map_some']
      · rename_i rest
        simp only [Option.map_eq_some'] at h
        obtain ⟨r', hrec, hpair⟩ := h
        simp only [Prod.mk.injEq] at hpair
        obtain ⟨hv, hr⟩ := hpair
        subst hv
        subst hr
        have hsp := expectLit_split _ _ _ hrec
        have e0 : cutL k ('N' :: rest) = 'N' :: cutL k rest :=
          cutL_cons _ _ _ (by rw [hsp]; simp only [List.length_append]; omega)
        rw [e0, parseValue_succ]
        simp only [expectLit_cutL _ _ _ k hrec hk, Option.map_some']
      · rename_i rest
        simp only [Option.map_eq_some'] at h
        obtain ⟨r', hrec, hpair⟩ := h
        simp only [Prod.mk.injEq] at hpair
        obtain ⟨hv, hr⟩ := hpair
        subst hv
        subst hr
        have hsp := expectLit_split _ _ _ hrec
        have e0 : cutL k ('I' :: rest) = 'I' :: cutL k rest :=
          cutL_cons _ _ _ (by rw [hsp]; simp only [List.length_append]; omega)
        rw [e0, parseValue_succ]
        simp only [expectLit_cutL _ _ _ k hrec hk, Option.map_some']
      · rename_i rest
        simp only [Option.map_eq_some'] at h
        obtain ⟨r', hrec, hpair⟩ := h
        simp only [Prod.mk.injEq] at hpair
        obtain ⟨hv, hr⟩ := hpair
        subst hv
        subst hr
        have hsp := expectLit_split _ _ _ hrec
        have e0 : cutL k ('-' :: 'I' :: rest) = '-' :: 'I' :: cutL k rest := by
          rw [cutL_cons _ _ _ (by rw [hsp]; simp only [List.length_cons, List.length_append]; omega),
            cutL_cons _ _ _ (by rw [hsp]; simp only [List.length_append]; omega)]
        rw [e0, parseValue_succ]
        simp only [expectLit_cutL _ _ _ k hrec hk, Option.map_some']
      · rename_i hne9
        simp only [Option.map_eq_some'] at h
        obtain ⟨⟨lex, r'⟩, hrec, hpair⟩ := h
        simp only [Prod.mk.injEq] at hpair
        obtain ⟨hv, hr⟩ := hpair
        subst hv
        subst hr
        obtain ⟨c, cs, hlc, hstart⟩ := lexNumber_start l (lex, r') hrec
        obtain ⟨hl, hlexne, -⟩ := lexNumber_split l lex r' hrec
        have hkcs : k ≤ cs.length := by
          have h1 : l.length = lex.length + r'.length := by rw [hl]; simp
          have h2 : l.length = cs.length + 1 := by rw [hlc]; simp
          have h3 : 1 ≤ lex.length := by
            rcases lex with _ | ⟨a, b⟩
            · exact absurd rfl hlexne
            · simp
          omega
        have e0 : cutL k l = c :: cutL k cs := by
          rw [hlc]
          exact cutL_cons _ _ _ hkcs
        have e1 : lexNumber (cutL k l) = some (lex, cutL k r') :=
          lexNumber_cutL l lex r' k hrec hk
        rw [e0, parseValue_succ]
        split
        · rename_i rr heq2
          injection heq2 with h1 h2
          subst h1
          rcases hstart with hc | hc <;> exact absurd hc (by decide)
        · rename_i rr heq2
          injection heq2 with h1 h2
          subst h1
          rcases hstart with hc | hc <;> exact absurd hc (by decide)
        · rename_i rr heq2
          injection heq2 with h1 h2
          subst h1
          rcases hstart with hc | hc <;> exact absurd hc (by decide)
        · rename_i rr heq2
          injection heq2 with h1 h2
          subst h1
          rcases hstart with hc | hc <;> exact absurd hc (by decide)
        · rename_i rr heq2
          injection heq2 with h1 h2
          subst h1
          rcases hstart with hc | hc <;> exact absurd hc (by decide)
        · rename_i rr heq2
          injection heq2 with h1 h2
          subst h1
          rcases hstart with hc | hc <;> exact absurd hc (by decide)
        · rename_i rr heq2
          injection heq2 with h1 h2
          subst h1
          rcases hstart with hc | hc <;> exact absurd hc (by decide)
        · rename_i rr heq2
          injection heq2 with h1 h2
          subst h1
          rcases hstart with hc | hc <;> exact absurd hc (by decide)
        · rename_i rr heq2
          injection heq2 with h1 h2
          obtain ⟨t2, ht2⟩ := cutL_head k cs 'I' rr h2
          exact absurd (by rw [hlc, h1, ht2]) (fun hx => hne9 t2 hx)
        · rw [← e0, e1]
          rfl
    · rw [parseMembers_succ] at h
      split at h
      · rename_i rest
        split at h
        · exact absurd h (by simp)
        · rename_i k1 r1 heq1
          split at h
          · rename_i r2 heq2
            split at h
            · exact absurd h (by simp)
            · rename_i v1 r3 heq3
              have lb1 := (scanStr_suffix rest k1 r1 heq1).1
              have lb2 := (suffix_cons_drop r1 r2 ':' heq2).1
              have lb3 := ((parse_suffix f).1 (skipWs r2) v1 r3 heq3).1
              have lb3b := (skipWs_suffix r2).length_le
              split at h
              · rename_i r4 heq4
                have lb4 := (suffix_cons_drop r3 r4 ',' heq4).1
                have lb5 := ((parse_suffix f).2.1 (skipWs r4) (objInsert acc k1 v1) v r h).1
                have lb5b := (skipWs_suffix r4).length_le
                have e0 : cutL k ('"' :: rest) = '"' :: cutL k rest :=
                  cutL_cons _ _ _ (by omega)
                have e1 : scanStr (cutL k rest) = some (k1, cutL k r1) :=
                  scanStr_cutL rest k1 r1 k heq1 (by omega)
                have e2 : skipWs (cutL k r1) = ':' :: cutL k r2 := by
                  rw [skipWs_cutL r1 k (by rw [heq2]; simp only [List.length_cons]; omega),
                    heq2, cutL_cons _ _ _ (by omega)]
                have e3 : skipWs (cutL k r2) = cutL k (skipWs r2) :=
                  skipWs_cutL r2 k (by omega)
                have e4 : parseValue f (cutL k (skipWs r2)) = some (v1, cutL k r3) :=
                  ihv (skipWs r2) v1 r3 k heq3 (by omega)
                have e5 : skipWs (cutL k r3) = ',' :: cutL k r4 := by
                  rw [skipWs_cutL r3 k (by rw [heq4]; simp only [List.length_cons]; omega),
                    heq4, cutL_cons _ _ _ (by omega)]
                have e6 : skipWs (cutL k r4) = cutL k (skipWs r4) :=
                  skipWs_cutL r4 k (by omega)
                have e7 : parseMembers f (cutL k (skipWs r4)) (objInsert acc k1 v1) =
                    some (v, cutL k r) :=
                  ihm (skipWs r4) (objInsert acc k1 v1) v r k h hk
                rw [e0, parseMembers_succ]
                simp only [e1, e2, e3, e4, e5, e6, e7]
              · rename_i r4 heq4
                simp only [Option.some.injEq, Prod.mk.injEq] at h
                obtain ⟨hv, hr⟩ := h
                subst hv
                subst hr
                have lb4 := (suffix_cons_drop r3 r4 '\x7d' heq4).1
                have e0 : cutL k ('"' :: rest) = '"' :: cutL k rest :=
                  cutL_cons _ _ _ (by omega)
                have e1 : scanStr (cutL k rest) = some (k1, cutL k r1) :=
                  scanStr_cutL rest k1 r1 k heq1 (by omega)
                have e2 : skipWs (cutL k r1) = ':' :: cutL k r2 := by
                  rw [skipWs_cutL r1 k (by rw [heq2]; simp only [List.length_cons]; omega),
                    heq2, cutL_cons _ _ _ (by omega)]
                have e3 : skipWs (cutL k r2) = cutL k (skipWs r2) :=
                  skipWs_cutL r2 k (by omega)
                have e4 : parseValue f (cutL k (skipWs r2)) = some (v1, cutL k r3) :=
                  ihv (skipWs r2) v1 r3 k heq3 (by omega)
                have e5 : skipWs (cutL k r3) = '\x7d' :: cutL k r4 := by
                  rw [skipWs_cutL r3 k (by rw [heq4]; simp only [List.length_cons]; omega),
                    heq4, cutL_cons _ _ _ hk]
                rw [e0, parseMembers_succ]
                simp only [e1, e2, e3, e4, e5]
              · exact absurd h (by simp)
          · exact absurd h (by simp)
      · exact absurd h (by simp)
    · rw [parseElems_succ] at h
      split at h
      · rename_i r2 heq
        split at h
        · exact absurd h (by simp)
        · rename_i v1 r3 heq2
          have lb2 := (suffix_cons_drop l r2 ',' heq).1
          have lb3 := ((parse_suffix f).1 (skipWs r2) v1 r3 heq2).1
          have lb3b := (skipWs_suffix r2).length_le
          have lb4 := ((parse_suffix f).2.2 r3 (acc ++ [v1]) v r h).1
          have e0 : skipWs (cutL k l) = ',' :: cutL k r2 := by
            rw [skipWs_cutL l k (by rw [heq]; simp only [List.length_cons]; omega),
              heq, cutL_cons _ _ _ (by omega)]
          have e1 : skipWs (cutL k r2) = cutL k (skipWs r2) :=
            skipWs_cutL r2 k (by omega)
          have e2 : parseValue f (cutL k (skipWs r2)) = some (v1, cutL k r3) :=
            ihv (skipWs r2) v1 r3 k heq2 (by omega)
          have e3 : parseElems f (cutL k r3) (acc ++ [v1]) = some (v, cutL k r) :=
            ihe r3 (acc ++ [v1]) v r k h hk
          rw [parseElems_succ]
          simp only [e0, e1, e2, e3]
      · rename_i r2 heq
        simp only [Option.some.injEq, Prod.mk.injEq] at h
        obtain ⟨hv, hr⟩ := h
        subst hv
        subst hr
        have e0 : skipWs (cutL k l) = ']' :: cutL k r2 := by
          rw [skipWs_cutL l k (by rw [heq]; simp only [List.length_cons]; omega),
            heq, cutL_cons _ _ _ hk]
        rw [parseElems_succ]
        simp only [e0]
      · exact absurd h (by simp)

/-! Any fuel at least one more than the number of consumed characters gives
the same parse: the fuel in `jsonParse` is merely a termination device. -/

theorem parse_fuel : ∀ fuel : Nat,
    (∀ l v r, parseValue fuel l = some (v, r) →
      ∀ g, l.length - r.length + 1 ≤ g → parseValue g l = some (v, r)) ∧
    (∀ l acc v r, parseMembers fuel l acc = some (v, r) →
      ∀ g, l.length - r.length + 1 ≤ g → parseMembers g l acc = some (v, r)) ∧
    (∀ l acc v r, parseElems fuel l acc = some (v, r) →
      ∀ g, l.length - r.length + 1 ≤ g → parseElems g l acc = some (v, r)) := by
  intro fuel
  induction fuel with
  | zero =>
    refine ⟨fun l v r h => ?_, fun l acc v r h => ?_, fun l acc v r h => ?_⟩
    · rw [parseValue_zero] at h
      exact absurd h (by simp)
    · rw [parseMembers_zero] at h
      exact absurd h (by simp)
    · rw [parseElems_zero] at h
      exact absurd h (by simp)
  | succ f ih =>
    obtain ⟨ihv, ihm, ihe⟩ := ih
    refine ⟨fun l v r h g hg => ?_, fun l acc v r h g hg => ?_,
      fun l acc v r h g hg => ?_⟩
    · obtain ⟨g', rfl⟩ : ∃ g', g = g' + 1 := ⟨g - 1, by omega⟩
      rw [parseValue_succ] at h
      rw [parseValue_succ]
      split at h
      · rename_i rest
        split at h
        · exact h
        · have hle := (skipWs_suffix rest).length_le
          have lb := ((parse_suffix f).2.1 (skipWs rest) [] v r h).1
          simp only [List.length_cons] at hg
          exact ihm (skipWs rest) [] v r h g' (by omega)
      · rename_i rest
        split at h
        · exact h
        · split at h
          · exact absurd h (by simp)
          · rename_i v1 r1 heq2
            have hle := (skipWs_suffix rest).length_le
            have lbv := ((parse_suffix f).1 (skipWs rest) v1 r1 heq2).1
            have lbe := ((parse_suffix f).2.2 r1 [v1] v r h).1
            simp only [List.length_cons] at hg
            simp only [ihv (skipWs rest) v1 r1 heq2 g' (by omega)]
            exact ihe r1 [v1] v r h g' (by omega)
      · exact h
      · exact h
      · exact h
      · exact h
      · exact h
      · exact h
      · exact h
      · exact h
    · obtain ⟨g', rfl⟩ : ∃ g', g = g' + 1 := ⟨g - 1, by omega⟩
      rw [parseMembers_succ] at h
      rw [parseMembers_succ]
      split at h
      · rename_i rest
        split at h
        · exact absurd h (by simp)
        · rename_i k1 r1 heq1
          split at h
          · rename_i r2 heq2
            split at h
            · exact absurd h (by simp)
            · rename_i v1 r3 heq3
              have lb1 := (scanStr_suffix rest k1 r1 heq1).1
              have lb2 := (suffix_cons_drop r1 r2 ':' heq2).1
              have lb3 := ((parse_suffix f).1 (skipWs r2) v1 r3 heq3).1
              have lb3b := (skipWs_suffix r2).length_le
              simp only [List.length_cons] at hg
              split at h
              · rename_i r4 heq4
                have lb4 := (suffix_cons_drop r3 r4 ',' heq4).1
                have lb5 := ((parse_suffix f).2.1 (skipWs r4) (objInsert acc k1 v1) v r h).1
                have lb5b := (skipWs_suffix r4).length_le
                simp only [ihv (skipWs r2) v1 r3 heq3 g' (by omega), heq4]
                exact ihm (skipWs r4) (objInsert acc k1 v1) v r h g' (by omega)
              · rename_i r4 heq4
                have lb4 := (suffix_cons_drop r3 r4 '\x7d' heq4).1
                simp only [Option.some.injEq, Prod.mk.injEq] at h
                obtain ⟨hv, hr⟩ := h
                subst hv
                subst hr
                simp only [ihv (skipWs r2) v1 r3 heq3 g' (by omega), heq4]
              · exact absurd h (by simp)
          · exact absurd h (by simp)
      · exact absurd h (by simp)
    · obtain ⟨g', rfl⟩ : ∃ g', g = g' + 1 := ⟨g - 1, by omega⟩
      rw [parseElems_succ] at h
      rw [parseElems_succ]
      split at h
      · rename_i r2 heq
        split at h
        · exact absurd h (by simp)
        · rename_i v1 r3 heq2
          have lb2 := (suffix_cons_drop l r2 ',' heq).1
          have lb3 := ((parse_suffix f).1 (skipWs r2) v1 r3 heq2).1
          have lb3b := (skipWs_suffix r2).length_le
          have lb4 := ((parse_suffix f).2.2 r3 (acc ++ [v1]) v r h).1
          simp only [ihv (skipWs r2) v1 r3 heq2 g' (by omega)]
          exact ihe r3 (acc ++ [v1]) v r h g' (by omega)
      · exact h
      · exact absurd h (by simp)

theorem parseValue_start (fuel : Nat) (l : List Char) (v : Json) (r : List Char)
    (h : parseValue fuel l = some (v, r)) :
    ∃ c cs, l = c :: cs ∧ isStart c = true := by
  cases fuel with
  | zero =>
    rw [parseValue_zero] at h
    exact absurd h (by simp)
  | succ f =>
    rw [parseValue_succ] at h
    split at h
    · rename_i rest
      exact ⟨'\x7b', rest, rfl, by decide⟩
    · rename_i rest
      exact ⟨'[', rest, rfl, by decide⟩
    · rename_i rest
      exact ⟨'"', rest, rfl, by decide⟩
    · rename_i rest
      exact ⟨'t', rest, rfl, by decide⟩
    · rename_i rest
      exact ⟨'f', rest, rfl, by decide⟩
    · rename_i rest
      exact ⟨'n', rest, rfl, by decide⟩
    · rename_i rest
      exact ⟨'N', rest, rfl, by decide⟩
    · rename_i rest
      exact ⟨'I', rest, rfl, by decide⟩
    · rename_i rest
      exact ⟨'-', 'I' :: rest, rfl, by decide⟩
    · simp only [Option.map_eq_some'] at h
      obtain ⟨⟨lex, r'⟩, hrec, -⟩ := h
      obtain ⟨c, cs, hl, hc⟩ := lexNumber_start l (lex, r') hrec
      refine ⟨c, cs, hl, ?_⟩
      rcases hc with hc | hc
      · subst hc
        decide
      · simp [isStart, hc]

/-! `json.loads` is unaffected by a surrounding `str.strip()`: a successful
parse skips only JSON whitespace at the front, ends on a non-space
character, and tolerates only JSON whitespace behind the value. -/

theorem skipWs_eq (l : List Char) : l.dropWhile isJsonWs = skipWs l := rfl

theorem jsonParse_pyStrip (t : List Char) (v : Json) (h : jsonParse t = some v) :
    jsonParse (pyStrip t) = some v := by
  unfold jsonParse at h
  split at h
  · exact absurd h (by simp)
  · rename_i v0 r heqp
    split at h
    · rename_i harm
      simp only [Option.some.injEq] at h
      subst h
      obtain ⟨c, cs, hu, hc⟩ := parseValue_start _ _ _ _ heqp
      obtain ⟨x, cl, hxcl, hclws⟩ :=
        ((parse_lastchar (t.length + 1)).1 (skipWs t) v0 r heqp)
      have hrws : ∀ a ∈ r, isJsonWs a = true := List.dropWhile_eq_nil_iff.mp harm
      have hdropt : t.dropWhile pyIsSpace = skipWs t := by
        conv_lhs => rw [← List.takeWhile_append_dropWhile isJsonWs t]
        rw [dropWhile_append_all pyIsSpace _ _
          (fun a ha => jsonWs_pyWs a (List.mem_takeWhile_imp ha))]
        rw [skipWs_eq, hu]
        simp [List.dropWhile_cons, isStart_not_pyWs c hc]
      have hstrip : pyStrip t = x ++ [cl] := by
        unfold pyStrip stripBoth
        rw [hdropt, hxcl, List.reverse_append, List.reverse_cons, List.append_assoc]
        rw [dropWhile_append_all pyIsSpace r.reverse _
          (fun a ha => jsonWs_pyWs a (hrws a (List.mem_reverse.mp ha)))]
        simp [List.dropWhile_cons, hclws]
      have hdecomp : skipWs t = (x ++ [cl]) ++ r := by
        rw [hxcl]
        simp
      have hcut := (parse_cutL (t.length + 1)).1 (skipWs t) v0 r r.length heqp le_rfl
      rw [cutL_self, hdecomp, cutL_append_self] at hcut
      have hfuel := (parse_fuel (t.length + 1)).1 (x ++ [cl]) v0 [] hcut
        ((x ++ [cl]).length + 1) (by simp)
      have hhead : ∃ cs', x ++ [cl] = c :: cs' := by
        rcases hx : x ++ [cl] with _ | ⟨c', cs'⟩
        · exact absurd hx (by simp)
        · refine ⟨cs', ?_⟩
          have hform : skipWs t = c' :: (cs' ++ r) := by
            rw [hdecomp, hx]
            rfl
          rw [hu] at hform
          injection hform with h1 h2
          rw [h1]
      obtain ⟨cs', hhead⟩ := hhead
      rw [hstrip]
      unfold jsonParse
      rw [show skipWs (x ++ [cl]) = x ++ [cl] from by
        rw [hhead]
        exact skipWs_cons_of_neg c cs' (isStart_not_jsonWs c hc)]
      rw [hfuel]
      simp [skipWs]
    · exact absurd h (by simp)

/-! Idempotence of stripping, and the behaviour of `cleanText` when no code
fence is present. -/

theorem dropWhile_head (p : Char → Bool) (l : List Char) (c : Char) (r : List Char)
    (h : l.dropWhile p = c :: r) : p c = false := by
  induction l with
  | nil => simp at h
  | cons d ds ih =>
    rw [List.dropWhile_cons] at h
    split at h
    · exact ih h
    · cases h
      simp_all

theorem stripBoth_edges (p : Char → Bool) (l : List Char)
    (h1 : ∀ c cs, l = c :: cs → p c = false)
    (h2 : ∀ x c, l = x ++ [c] → p c = false) : stripBoth p l = l := by
  unfold stripBoth
  have hd : l.dropWhile p = l := by
    cases hl : l with
    | nil => simp
    | cons c cs => rw [List.dropWhile_cons, h1 c cs hl]; simp
  rw [hd]
  have hd2 : l.reverse.dropWhile p = l.reverse := by
    cases hr : l.reverse with
    | nil => simp
    | cons c cs =>
      have hl : l = cs.reverse ++ [c] := by
        have := congrArg List.reverse hr
        simpa using this
      rw [List.dropWhile_cons, h2 cs.reverse c hl]
      simp
  rw [hd2, List.reverse_reverse]

theorem last_eq_of_concat (x y : List Char) (c d : Char)
    (h : x ++ [c] = y ++ [d]) : c = d := by
  have hc := congrArg List.getLast? h
  simp only [List.getLast?_concat] at hc
  exact Option.some.inj hc

theorem stripBoth_idem (p : Char → Bool) (l : List Char) :
    stripBoth p (stripBoth p l) = stripBoth p l := by
  apply stripBoth_edges
  · intro c cs heq
    unfold stripBoth at heq
    have hB : (l.dropWhile p).reverse.dropWhile p = cs.reverse ++ [c] := by
      have hrev := congrArg List.reverse heq
      simpa using hrev
    obtain ⟨y, hy⟩ := List.dropWhile_suffix (l := (l.dropWhile p).reverse) p
    rw [hB] at hy
    have hthis := congrArg List.reverse hy
    simp at hthis
    exact dropWhile_head p l c (cs ++ y.reverse) hthis.symm
  · intro x c heq
    unfold stripBoth at heq
    have hB : (l.dropWhile p).reverse.dropWhile p = c :: x.reverse := by
      have := congrArg List.reverse heq
      simpa using this
    exact dropWhile_head p (l.dropWhile p).reverse c x.reverse hB

theorem pyStrip_idem (l : List Char) : pyStrip (pyStrip l) = pyStrip l :=
  stripBoth_idem pyIsSpace l

theorem cleanText_nofence (t : List Char)
    (hfence : (str2list "```").isPrefixOf (pyStrip t) = false) :
    cleanText t = pyStrip t := by
  unfold cleanText
  simp only [hfence, Bool.false_eq_true, if_false]
  exact pyStrip_idem t

/-- Claim C1: a well-formed JSON text with no code fences is repaired to
exactly the value of a plain `json.loads` of that text. -/
theorem json_repair_direct (t : List Char) (v : Json)
    (hjson : jsonParse t = some v)
    (hfence : (str2list "```").isPrefixOf (pyStrip t) = false) :
    repairJson t = .ok v := by
  unfold repairJson
  rw [cleanText_nofence t hfence]
  simp only [jsonParse_pyStrip t v hjson]

/-- Witness for C1 on the concrete text `  \x7b"a": 1\x7d  `. -/
theorem json_repair_direct_witness :
    jsonParse (str2list "  \x7b\"a\": 1\x7d  ") =
        some (Json.obj [(str2list "a", Json.num (str2list "1"))]) ∧
      (str2list "```").isPrefixOf (pyStrip (str2list "  \x7b\"a\": 1\x7d  ")) = false ∧
      repairJson (str2list "  \x7b\"a\": 1\x7d  ") =
        .ok (Json.obj [(str2list "a", Json.num (str2list "1"))]) :=
  ⟨rfl, rfl, json_repair_direct _ _ rfl rfl⟩

/-! The code-fence path of `cleanText`, computed for a fenced object. -/

theorem pyStrip_wrap_nl (c0 cl : Char) (mid : List Char)
    (h0 : pyIsSpace c0 = false) (hl : pyIsSpace cl = false) :
    pyStrip ('\n' :: ((c0 :: (mid ++ [cl])) ++ ['\n'])) = c0 :: (mid ++ [cl]) := by
  unfold pyStrip stripBoth
  have e1 : List.dropWhile pyIsSpace ('\n' :: ((c0 :: (mid ++ [cl])) ++ ['\n'])) =
      (c0 :: (mid ++ [cl])) ++ ['\n'] := by
    rw [List.dropWhile_cons, show pyIsSpace '\n' = true from rfl]
    simp only [if_true]
    rw [List.cons_append, List.dropWhile_cons, h0]
    simp
  rw [e1, List.reverse_append]
  have e2 : List.dropWhile pyIsSpace
      (['\n'].reverse ++ (c0 :: (mid ++ [cl])).reverse) =
      (mid ++ [cl]).reverse ++ [c0] := by
    rw [show (['\n'] : List Char).reverse = ['\n'] from rfl, List.singleton_append,
      List.dropWhile_cons, show pyIsSpace '\n' = true from rfl]
    simp only [if_true]
    rw [List.reverse_cons, List.reverse_append,
      show ([cl] : List Char).reverse = [cl] from rfl, List.singleton_append,
      List.cons_append, List.dropWhile_cons, hl]
    simp
  rw [e2]
  have e3 : ((mid ++ [cl]).reverse ++ [c0]).reverse = c0 :: (mid ++ [cl]) := by
    rw [List.reverse_append, List.reverse_reverse]
    rfl
  rw [e3]

/-- Claim C2: a triple-backtick fence tagged `json` around a well-formed
JSON object repairs to exactly the parse of the enclosed object. -/
theorem json_repair_fenced (mid : List Char) (v : Json)
    (hjson : jsonParse ('\x7b' :: (mid ++ ['\x7d'])) = some v) :
    repairJson (str2list "```json\n" ++
      (('\x7b' :: (mid ++ ['\x7d'])) ++ str2list "\n```")) = .ok v := by
  have hA : pyStrip (str2list "```json\n" ++
      (('\x7b' :: (mid ++ ['\x7d'])) ++ str2list "\n```")) =
      str2list "```json\n" ++ (('\x7b' :: (mid ++ ['\x7d'])) ++ str2list "\n```") := by
    apply stripBoth_edges
    · intro c cs heq
      have hf : str2list "```json\n" ++ (('\x7b' :: (mid ++ ['\x7d'])) ++ str2list "\n```") =
          '`' :: (str2list "``json\n" ++ (('\x7b' :: (mid ++ ['\x7d'])) ++ str2list "\n```")) := rfl
      rw [hf] at heq
      injection heq with h1 h2
      rw [← h1]
      decide
    · intro x c heq
      have hf : str2list "```json\n" ++ (('\x7b' :: (mid ++ ['\x7d'])) ++ str2list "\n```") =
          (str2list "```json\n" ++ (('\x7b' :: (mid ++ ['\x7d'])) ++ ['\n', '`', '`'])) ++ ['`'] := by
        simp [show str2list "\n```" = ['\n', '`', '`', '`'] from rfl]
      have hc := last_eq_of_concat x _ c '`' (heq.symm.trans hf)
      rw [hc]
      decide
  have hticks : stripTicks (str2list "```json\n" ++
      (('\x7b' :: (mid ++ ['\x7d'])) ++ str2list "\n```")) =
      str2list "json\n" ++ (('\x7b' :: (mid ++ ['\x7d'])) ++ ['\n']) := by
    unfold stripTicks stripBoth
    have d1 : List.dropWhile (fun c => c == '`')
        (str2list "```json\n" ++ (('\x7b' :: (mid ++ ['\x7d'])) ++ str2list "\n```")) =
        str2list "json\n" ++ (('\x7b' :: (mid ++ ['\x7d'])) ++ str2list "\n```") := rfl
    rw [d1, List.reverse_append, List.reverse_append]
    have d2 : (str2list "\n```").reverse = '`' :: '`' :: '`' :: '\n' :: [] := rfl
    rw [d2]
    have d3 : List.dropWhile (fun c => c == '`')
        (('`' :: '`' :: '`' :: '\n' :: []) ++
          (('\x7b' :: (mid ++ ['\x7d'])).reverse ++ (str2list "json\n").reverse)) =
        '\n' :: (('\x7b' :: (mid ++ ['\x7d'])).reverse ++ (str2list "json\n").reverse) := rfl
    rw [List.append_assoc]
    rw [d3]
    rw [List.reverse_cons, List.reverse_append, List.reverse_reverse, List.reverse_reverse]
    simp
  have hclean : cleanText (str2list "```json\n" ++
      (('\x7b' :: (mid ++ ['\x7d'])) ++ str2list "\n```")) = '\x7b' :: (mid ++ ['\x7d']) := by
    unfold cleanText
    simp only [hA,
      show (str2list "```").isPrefixOf (str2list "```json\n" ++
        (('\x7b' :: (mid ++ ['\x7d'])) ++ str2list "\n```")) = true from rfl,
      if_true, hticks,
      show (str2list "json").isPrefixOf ((str2list "json\n" ++
        (('\x7b' :: (mid ++ ['\x7d'])) ++ ['\n'])).map lowerAscii) = true from rfl,
      show (str2list "json\n" ++ (('\x7b' :: (mid ++ ['\x7d'])) ++ ['\n'])).drop 4 =
        '\n' :: (('\x7b' :: (mid ++ ['\x7d'])) ++ ['\n']) from rfl,
      pyStrip_wrap_nl '\x7b' '\x7d' mid (by decide) (by decide)]
  unfold repairJson
  rw [hclean]
  simp only [hjson]

/-- Witness for C2 on the concrete text ```` ```json\n\x7b"name":"Oats"\x7d\n``` ````,
which repairs to the object parsed from `\x7b"name":"Oats"\x7d`. -/
theorem json_repair_fenced_witness :
    jsonParse (str2list "\x7b\"name\":\"Oats\"\x7d") =
        some (Json.obj [(str2list "name", Json.str (str2list "Oats"))]) ∧
      repairJson (str2list "```json\n\x7b\"name\":\"Oats\"\x7d\n```") =
        .ok (Json.obj [(str2list "name", Json.str (str2list "Oats"))]) := by
  refine ⟨rfl, ?_⟩
  have h := json_repair_fenced (str2list "\"name\":\"Oats\"") _ rfl
  exact h

/-! The brace-scan fallback and failure paths of the repair step, and the
endpoint-level behaviour. -/

/-- Claim C3: when the cleaned text fails a direct parse but the substring
from the first `\x7b` to the last `\x7d` (inclusive) parses, the repair
step returns exactly the parse of that substring. -/
theorem json_repair_brace_scan (t : List Char) (i j : Nat) (v : Json)
    (hfail : jsonParse (cleanText t) = none)
    (hi : posFind '\x7b' (cleanText t) = some i)
    (hj : posRFind '\x7d' (cleanText t) = some j)
    (hij : i < j)
    (hsub : jsonParse (((cleanText t).drop i).take (j + 1 - i)) = some v) :
    repairJson t = .ok v := by
  unfold repairJson braceSpan
  simp only [hfail, hi, hj, if_pos hij, hsub]

/-- Witness for C3 on `Sure! \x7b"name":"Oats","per_100g":\x7b\x7d\x7d Hope that helps.` -/
theorem json_repair_brace_scan_witness :
    repairJson (str2list "Sure! \x7b\"name\":\"Oats\",\"per_100g\":\x7b\x7d\x7d Hope that helps.") =
      .ok (Json.obj [(str2list "name", Json.str (str2list "Oats")),
                     (str2list "per_100g", Json.obj [])]) :=
  json_repair_brace_scan _ 6 34 _ rfl rfl rfl (by decide) rfl

/-- Claim C4: when the cleaned text fails a direct parse, the repair step
raises a 500 `HTTPException`: `No JSON found in Gemini output` when no
brace pair with the first `\x7b` strictly before the last `\x7d` exists,
and `Failed to parse JSON from Gemini output` when the pair exists but the
bracketed substring also fails to parse. -/
theorem json_repair_failure (t : List Char)
    (hfail : jsonParse (cleanText t) = none) :
    (braceSpan (cleanText t) = none →
      repairJson t = .error ⟨500, noJsonMsg⟩) ∧
    (∀ i j, braceSpan (cleanText t) = some (i, j) →
      jsonParse (((cleanText t).drop i).take (j + 1 - i)) = none →
      repairJson t = .error ⟨500, parseFailMsg⟩) := by
  constructor
  · intro hbs
    unfold repairJson
    simp only [hfail, hbs]
  · intro i j hbs hsub
    unfold repairJson
    simp only [hfail, hbs, hsub]

/-- Witness for C4 on `no json here` (no brace pair) and on
`\x7boops\x7d text` (brace pair whose substring fails to parse). -/
theorem json_repair_failure_witness :
    jsonParse (cleanText (str2list "no json here")) = none ∧
      repairJson (str2list "no json here") = .error ⟨500, noJsonMsg⟩ ∧
      repairJson (str2list "\x7boops\x7d text") = .error ⟨500, parseFailMsg⟩ :=
  ⟨rfl, (json_repair_failure (str2list "no json here") rfl).1 rfl,
    (json_repair_failure (str2list "\x7boops\x7d text") rfl).2 0 5 rfl rfl⟩

/-- Claim C5: the normalized response's `per_100g` field is always present
(it is a field of the response record) and defaults to the empty mapping
whenever the repaired object's `per_100g` key is absent or holds a falsy
value; in those cases it is in particular a mapping. -/
theorem response_per100g_default (parsed : List (List Char × Json))
    (h : lookupKey parsed (str2list "per_100g") = none ∨
      pyFalsy (pyGet parsed (str2list "per_100g")) = true) :
    (normalizeLabel parsed).per_100g = Json.obj [] ∧
      ((normalizeLabel parsed).per_100g).isObj = true := by
  have hf : pyFalsy (pyGet parsed (str2list "per_100g")) = true := by
    rcases h with h | h
    · unfold pyGet
      rw [h]
      rfl
    · exact h
  have hp : (normalizeLabel parsed).per_100g = Json.obj [] := by
    show (if pyFalsy (pyGet parsed (str2list "per_100g")) then Json.obj []
      else pyGet parsed (str2list "per_100g")) = Json.obj []
    rw [if_pos hf]
  exact ⟨hp, by rw [hp]; rfl⟩

/-- Witness for C5: an object without `per_100g`, and one with `per_100g`
bound to JSON `null`. -/
theorem response_per100g_default_witness :
    ((normalizeLabel [(str2list "name", Json.str (str2list "Oats"))]).per_100g =
        Json.obj [] ∧
      ((normalizeLabel [(str2list "name", Json.str (str2list "Oats"))]).per_100g).isObj = true) ∧
    ((normalizeLabel [(str2list "per_100g", Json.null)]).per_100g = Json.obj [] ∧
      ((normalizeLabel [(str2list "per_100g", Json.null)]).per_100g).isObj = true) :=
  ⟨response_per100g_default _ (Or.inl rfl),
   response_per100g_default _ (Or.inr rfl)⟩

/-- Claim C6: with the credential unset or empty, the operation fails with
the fixed 500 `GEMINI_API_KEY not set on server` error, for every possible
upstream behaviour — the result does not depend on the network at all. -/
theorem missing_key_config_error (env : Option (List Char))
    (h : env.getD [] = []) (upstream : UpstreamResult) :
    callGemini env upstream = .httpError ⟨500, keyMissingMsg⟩ := by
  unfold callGemini
  simp [h]

/-- Witness for C6: unset credential with a live upstream reply. -/
theorem missing_key_config_error_witness :
    callGemini none (.reply 200 (str2list "irrelevant")) =
      .httpError ⟨500, keyMissingMsg⟩ :=
  missing_key_config_error none rfl _

theorem containsSub_append_self (x : List Char) :
    ∀ p : List Char, containsSub x (p ++ x) = true := by
  intro p
  induction p with
  | nil =>
    simp only [List.nil_append]
    cases x with
    | nil => rfl
    | cons c rest =>
      unfold containsSub
      rw [List.isPrefixOf_iff_prefix.mpr (List.prefix_refl _)]
      rfl
  | cons c ps ih =>
    rw [List.cons_append]
    unfold containsSub
    rw [ih]
    simp

/-- Claim C7: a non-200 upstream reply surfaces as an `HTTPException` whose
status equals the upstream status and whose detail embeds the first 500
characters of the upstream body. -/
theorem upstream_error_propagation (key : List Char) (hkey : key ≠ [])
    (status : Nat) (hstatus : status ≠ 200) (body : List Char) :
    callGemini (some key) (.reply status body) =
      .httpError ⟨status, str2list "Gemini error: " ++ body.take 500⟩ ∧
    containsSub (body.take 500)
      (str2list "Gemini error: " ++ body.take 500) = true := by
  constructor
  · unfold callGemini
    simp only [Option.getD_some, if_neg hkey, if_pos hstatus]
  · exact containsSub_append_self _ _

/-- Witness for C7: upstream HTTP 429 with body `rate limited`. -/
theorem upstream_error_propagation_witness :
    callGemini (some (str2list "k")) (.reply 429 (str2list "rate limited")) =
      .httpError ⟨429, str2list "Gemini error: " ++ (str2list "rate limited").take 500⟩ ∧
    containsSub ((str2list "rate limited").take 500)
      (str2list "Gemini error: " ++ (str2list "rate limited").take 500) = true :=
  upstream_error_propagation (str2list "k") (by decide) 429 (by decide)
    (str2list "rate limited")

/-- Claim C8: the `raw` field of the normalized response is the entire
repaired object verbatim, whatever its keys are. -/
theorem response_raw_verbatim (parsed : List (List Char × Json)) :
    (normalizeLabel parsed).raw = Json.obj parsed := rfl

/-- Claim C9: a 200 upstream reply whose JSON envelope lacks the path
`candidates[0].content.parts[0].text` fails with the fixed 500
`Unexpected Gemini response format` error. -/
theorem malformed_envelope_error (key : List Char) (hkey : key ≠ [])
    (body : List Char) (data : Json) (hparse : jsonParse body = some data)
    (hmiss : extractText data = none) :
    callGemini (some key) (.reply 200 body) = .httpError ⟨500, badFormatMsg⟩ := by
  unfold callGemini
  simp [hkey, hparse, hmiss]

/-- Witness for C9: a 200 reply whose body is the empty JSON object. -/
theorem malformed_envelope_error_witness :
    callGemini (some (str2list "k")) (.reply 200 (str2list "\x7b\x7d")) =
      .httpError ⟨500, badFormatMsg⟩ :=
  malformed_envelope_error (str2list "k") (by decide) _ (Json.obj []) rfl rfl

/-- Claim C10: when the repaired value is not an object, `parse_label` does
not produce a response and does not produce an `HTTPException`: the
`parsed.get` calls raise an unhandled `AttributeError`. -/
theorem nonobject_parse_unhandled (key : List Char) (hkey : key ≠ [])
    (body : List Char) (data : Json) (text : List Char) (v : Json)
    (hparse : jsonParse body = some data)
    (htext : extractText data = some (Json.str text))
    (hrepair : repairJson text = .ok v)
    (hnotobj : v.isObj = false) :
    parseLabel (some key) (.reply 200 body) =
      .unhandled (str2list "dict.get called on a non-object parse result") := by
  have hc : callGemini (some key) (.reply 200 body) = .ok v := by
    unfold callGemini
    simp [hkey, hparse, htext, hrepair]
  unfold parseLabel
  rw [hc]
  cases v with
  | obj ms => simp [Json.isObj] at hnotobj
  | null => rfl
  | bool b => rfl
  | num s => rfl
  | str s => rfl
  | arr xs => rfl

/-- Witness for C10: an envelope whose text field repairs to the JSON array
`[1, 2]`. -/
theorem nonobject_parse_unhandled_witness :
    parseLabel (some (str2list "k"))
      (.reply 200 (str2list "\x7b\"candidates\":[\x7b\"content\":\x7b\"parts\":[\x7b\"text\":\"[1, 2]\"\x7d]\x7d\x7d]\x7d")) =
      .unhandled (str2list "dict.get called on a non-object parse result") :=
  nonobject_parse_unhandled (str2list "k") (by decide) _ _ _ _ rfl rfl rfl rfl

end LabelBackend
